import Mathlib

/-!
# Packed counter arrays and Bloom filters (qyliu-hkust/slbf)

A shallow embedding of `src/bitutils.c` and `src/filters.c`.

Conventions of the embedding (the usual LP64 target of the C sources):

* `uint32` / `unsigned int` values are naturals reduced modulo `2 ^ 32`;
* `unsigned long` (the type of `1UL`, hence of every `GEN_BITS_RANGE` mask and of
  every expression mixing a word with a mask) is 64 bits wide;
* `int` is 32 bits wide, two's complement; a conversion to `int` reduces modulo
  `2 ^ 32` into `[-2 ^ 31, 2 ^ 31)`, `<<` on an `int` keeps the low 32 bits, `>>` on
  an `int` is the arithmetic shift, and the one subtraction `get_counter(..) - 1` of
  `decrement` wraps;
* counter indices and sizes are naturals; `init_counters` and `get_bin_range` take
  the products `size * bits_per_counter` and `bits_per_counter * idx` without
  overflow, which is what the code computes wherever they fit an `int`, and
  `init_counters_int` and `get_bin_range_int` keep the wrapping 32-bit `int`
  arithmetic of the code for the sizes where they do not;
* the backing store `raw_bits` is a list of words; a read is `List.getD _ _ 0`
  and a write is `List.set`;
* `float` scores and thresholds are the rationals that finite `float` values denote;
* the array of filters of a `GSLBF` is a list, and an access `SBF_array[idx]` outside
  it, undefined in C, makes `insert_gslbf` and `test_gslbf` return `none`.
-/

namespace SLBF

/-! ## Machine integers -/

/-- Conversion to `uint32`: reduction modulo `2 ^ 32`. -/
def to_uint32 (x : Nat) : Nat := x % 2 ^ 32

/-- Conversion to `unsigned long`: reduction modulo `2 ^ 64`. -/
def to_ulong (x : Nat) : Nat := x % 2 ^ 64

/-- Conversion to `int`: the representative of `x` modulo `2 ^ 32` in `[-2 ^ 31, 2 ^ 31)`. -/
def to_int (x : Int) : Int := (x + 2 ^ 31) % 2 ^ 32 - 2 ^ 31

/-- Conversion of an `int` to `unsigned int`: reduction modulo `2 ^ 32`. -/
def int_to_uint32 (x : Int) : Nat := (x % 2 ^ 32).toNat

/-- Bitwise complement `~x` of an `unsigned long`. -/
def ulong_not (x : Nat) : Nat := 2 ^ 64 - 1 - to_ulong x

/-- Left shift `x << n` of an `int`, keeping the low 32 bits. -/
def int_shl (x : Int) (n : Nat) : Int := to_int (x * 2 ^ n)

/-- Right shift `x >> n` of an `int` (arithmetic shift). -/
def int_shr (x : Int) (n : Nat) : Int := x / 2 ^ n

/-! ## bitutils.c -/

def BIN_BITS : Nat := 32

def MAX_BITS_PER_COUNTER : Nat := 32

/-- The macro `GEN_BITS_RANGE(l, r)`:
`(((1UL << ((l) - 1)) - 1) ^ ((1UL << (r)) - 1))`. -/
def GEN_BITS_RANGE (l r : Nat) : Nat :=
  (to_ulong (1 <<< (l - 1)) - 1) ^^^ (to_ulong (1 <<< r) - 1)

/-- The struct `CounterBitSet`. -/
structure CounterBitSet where
  raw_bits : List Nat
  size : Nat
  bits_per_counter : Nat
  num_bins : Nat
  deriving DecidableEq, Repr

/-- The word `raw_bits[i]`. -/
def CounterBitSet.word (counters : CounterBitSet) (i : Nat) : Nat :=
  counters.raw_bits.getD i 0

/-- The assignment `raw_bits[i] = v`. -/
def CounterBitSet.set_word (counters : CounterBitSet) (i v : Nat) : CounterBitSet :=
  { counters with raw_bits := counters.raw_bits.set i v }

/-- The function `init_counters`, with `bins` computed without overflow: `none` stands
for the `exit(1)` taken when `bits_per_counter > 32`; the allocation is taken to succeed.
It is what the code computes wherever `size * bits_per_counter + 32` fits an `int`;
`init_counters_int` keeps the `int` arithmetic. -/
def init_counters (size bits_per_counter : Nat) : Option CounterBitSet :=
  if bits_per_counter > MAX_BITS_PER_COUNTER then none
  else
    let bins := (size * bits_per_counter + BIN_BITS - 1) / BIN_BITS
    some { raw_bits := List.replicate bins 0
           size := size
           bits_per_counter := bits_per_counter
           num_bins := bins }

/-- The four outputs of `get_bin_range`. -/
structure BinRange where
  bin_start : Nat
  bin_end : Nat
  bit_start : Nat
  bit_end : Nat
  deriving DecidableEq, Repr

/-- The function `get_bin_range`, with `s` computed without overflow. It is what the code
computes wherever `bits_per_counter * idx + bits_per_counter` fits an `int`;
`get_bin_range_int` keeps the `int` arithmetic. -/
def get_bin_range (counters : CounterBitSet) (idx : Nat) : BinRange :=
  let s := counters.bits_per_counter * idx
  { bin_start := s >>> 5
    bin_end := (s + counters.bits_per_counter - 1) >>> 5
    bit_start := BIN_BITS - s % BIN_BITS
    bit_end := BIN_BITS - (s + counters.bits_per_counter - 1) % BIN_BITS }

/-- The function `test_counter`; the single-word branch returns the masked word
converted to `int`, the other branch the value of `||`. -/
def test_counter (counters : CounterBitSet) (idx : Nat) : Int :=
  let r := get_bin_range counters idx
  if r.bin_start = r.bin_end then
    to_int (counters.word r.bin_start &&& GEN_BITS_RANGE r.bit_end r.bit_start)
  else
    if counters.word r.bin_start &&& GEN_BITS_RANGE 1 r.bit_start ≠ 0 ∨
        counters.word r.bin_end &&& GEN_BITS_RANGE r.bit_end BIN_BITS ≠ 0 then 1 else 0

/-- The `unsigned long` expression that `get_counter` returns, before its
conversion to the return type `int`. -/
def get_counter_ulong (counters : CounterBitSet) (idx : Nat) : Nat :=
  let r := get_bin_range counters idx
  if r.bin_start = r.bin_end then
    (counters.word r.bin_start &&& GEN_BITS_RANGE r.bit_end r.bit_start) >>> (r.bit_end - 1)
  else
    to_ulong ((counters.word r.bin_start &&& GEN_BITS_RANGE 1 r.bit_start)
        <<< (BIN_BITS - r.bit_end + 1)) |||
      (counters.word r.bin_end &&& GEN_BITS_RANGE r.bit_end BIN_BITS) >>> (r.bit_end - 1)

/-- The function `get_counter` (return type `int`). -/
def get_counter (counters : CounterBitSet) (idx : Nat) : Int :=
  to_int (get_counter_ulong counters idx)

/-- The function `decrement`. -/
def decrement (counters : CounterBitSet) (idx : Nat) : CounterBitSet :=
  let r := get_bin_range counters idx
  if test_counter counters idx ≠ 0 then
    let temp : Int := to_int (get_counter counters idx - 1)
    if r.bin_start = r.bin_end then
      let c1 := counters.set_word r.bin_start
        (to_uint32 (counters.word r.bin_start &&&
          ulong_not (GEN_BITS_RANGE r.bit_end r.bit_start)))
      c1.set_word r.bin_start
        (c1.word r.bin_start ||| int_to_uint32 (int_shl temp (r.bit_end - 1)))
    else
      let c1 := counters.set_word r.bin_start
        (to_uint32 (counters.word r.bin_start &&& ulong_not (GEN_BITS_RANGE 1 r.bit_start)))
      let c2 := c1.set_word r.bin_start
        (c1.word r.bin_start ||| int_to_uint32 (int_shr temp (BIN_BITS - r.bit_end + 1)))
      let c3 := c2.set_word r.bin_end
        (to_uint32 (c2.word r.bin_end &&& ulong_not (GEN_BITS_RANGE r.bit_end BIN_BITS)))
      c3.set_word r.bin_end
        (c3.word r.bin_end ||| int_to_uint32 (int_shl temp (r.bit_end - 1)))
  else counters

/-- The function `set_to_max`. -/
def set_to_max (counters : CounterBitSet) (idx : Nat) : CounterBitSet :=
  let r := get_bin_range counters idx
  if r.bin_start = r.bin_end then
    counters.set_word r.bin_start
      (to_uint32 (counters.word r.bin_start ||| GEN_BITS_RANGE r.bit_end r.bit_start))
  else
    let c1 := counters.set_word r.bin_start
      (to_uint32 (counters.word r.bin_start ||| GEN_BITS_RANGE 1 r.bit_start))
    c1.set_word r.bin_end
      (to_uint32 (c1.word r.bin_end ||| GEN_BITS_RANGE r.bit_end BIN_BITS))

/-! ## bitutils.c, with the `int` index arithmetic kept

`init_counters` and `get_bin_range` above form `size * bits_per_counter` and
`bits_per_counter * idx` without overflow. The two definitions below keep the 32-bit
`int` arithmetic of `bitutils.c:27` and `bitutils.c:46-50` (each operation wrapping,
`/` and `%` truncating, `>>` arithmetic); they agree with the ones above wherever
`size * bits_per_counter + 32` fits an `int` (`init_counters_int_eq`,
`get_bin_range_int_eq`), and show what the code does where it does not. -/

def RANDOM_SEED1 : Nat := 123456789

def RANDOM_SEED2 : Nat := 987654321

/-- The value stored in `hash_codes[i]`: `(h1 + i * h2) % m` in `unsigned int`
arithmetic, where the product and the sum wrap modulo `2 ^ 32`. -/
def probe (h1 h2 m i : Nat) : Nat :=
  to_uint32 (h1 + to_uint32 (i * h2)) % m

/-- The function `gen_k_hash32`: the loop writes slots `0 .. k - 1` of `hash_codes`. -/
def gen_k_hash32 (XXH32 : List Nat → Nat → Nat) (data : List Nat) (k m : Nat)
    (hash_codes : List Nat) : List Nat :=
  let h1 := to_uint32 (XXH32 data RANDOM_SEED1)
  let h2 := to_uint32 (XXH32 data RANDOM_SEED2)
  (List.range k).foldl (fun codes i => codes.set i (probe h1 h2 m i)) hash_codes

/-- The `k` probe indices `gen_k_hash32` computes for `data`, in order. -/
def probes (XXH32 : List Nat → Nat → Nat) (data : List Nat) (k m : Nat) : List Nat :=
  (List.range k).map
    (probe (to_uint32 (XXH32 data RANDOM_SEED1)) (to_uint32 (XXH32 data RANDOM_SEED2)) m)

/-- The struct `BF`. -/
structure BF where
  bitset : CounterBitSet
  hash_codes : List Nat
  K : Nat
  m : Nat
  deriving DecidableEq, Repr

/-- The function `init_bf`; the `K` slots of the fresh scratch buffer `hash_codes`
hold indeterminate values, taken to be zero. -/
def init_bf (K m : Nat) : Option BF :=
  (init_counters m 1).map fun bitset =>
    { bitset := bitset, hash_codes := List.replicate K 0, K := K, m := m }

/-- The function `insert_bf`. -/
def insert_bf (XXH32 : List Nat → Nat → Nat) (bf : BF) (data : List Nat) : BF :=
  let codes := gen_k_hash32 XXH32 data bf.K bf.m bf.hash_codes
  { bf with
    hash_codes := codes
    bitset := (List.range bf.K).foldl (fun bs i => set_to_max bs (codes.getD i 0)) bf.bitset }

/-- The loop of `test_bf` and `test_sbf` from index `i` with `n` iterations left:
`0` at the first probed counter that tests zero, `1` when the loop runs out. -/
def test_loop (counters : CounterBitSet) (codes : List Nat) : Nat → Nat → Int
  | 0, _ => 1
  | n + 1, i =>
    if test_counter counters (codes.getD i 0) = 0 then 0
    else test_loop counters codes n (i + 1)

/-- The function `test_bf`: the value returned, and the filter with its scratch
buffer overwritten. -/
def test_bf (XXH32 : List Nat → Nat → Nat) (bf : BF) (data : List Nat) : Int × BF :=
  let codes := gen_k_hash32 XXH32 data bf.K bf.m bf.hash_codes
  (test_loop bf.bitset codes bf.K 0, { bf with hash_codes := codes })

/-- The struct `LBF`; scores and thresholds are the rationals the finite `float`
values denote. -/
structure LBF (Model : Type) where
  model : Model
  tau : ℚ
  bf : BF

/-- The function `init_lbf`. -/
def init_lbf {Model : Type} (model : Model) (K m : Nat) (tau : ℚ) : Option (LBF Model) :=
  (init_bf K m).map fun bf => { model := model, tau := tau, bf := bf }

/-- The function `insert_lbf`; `id_bytes data length` is the `length` bytes at
`&(data->id)`. -/
def insert_lbf {Model Data : Type} (predict : Model → Data → ℚ)
    (id_bytes : Data → Nat → List Nat) (XXH32 : List Nat → Nat → Nat)
    (lbf : LBF Model) (data : Data) (length : Nat) : LBF Model :=
  if predict lbf.model data < lbf.tau then
    { lbf with bf := insert_bf XXH32 lbf.bf (id_bytes data length) }
  else lbf

/-- The function `test_lbf`: the value returned, and the filter after the call. -/
def test_lbf {Model Data : Type} (predict : Model → Data → ℚ)
    (id_bytes : Data → Nat → List Nat) (XXH32 : List Nat → Nat → Nat)
    (lbf : LBF Model) (data : Data) (length : Nat) : Int × LBF Model :=
  if predict lbf.model data > lbf.tau then (1, lbf)
  else
    let r := test_bf XXH32 lbf.bf (id_bytes data length)
    (r.1, { lbf with bf := r.2 })

/-- The struct `SBF`; `Rng` is the type of the states of the external ISAAC generator
(`isaac_ctx`). -/
structure SBF (Rng : Type) where
  counters : CounterBitSet
  isaac : Rng
  hash_codes : List Nat
  P : Nat
  K : Nat
  m : Nat
  bits_per_counter : Nat

/-- The function `init_sbf`; `rng0` is the generator state `isaac_init` builds from
`ISAAC_SEED`. The scratch buffer and the field `bits_per_counter`, which `init_sbf`
does not assign, hold indeterminate values, taken to be zero. -/
def init_sbf {Rng : Type} (rng0 : Rng) (P K m bits_per_counter : Nat) : Option (SBF Rng) :=
  (init_counters m bits_per_counter).map fun counters =>
    { counters := counters, isaac := rng0, hash_codes := List.replicate K 0,
      P := P, K := K, m := m, bits_per_counter := 0 }

/-- The first loop of `insert_sbf` with `n` iterations left: each iteration draws an
index with `isaac_next_uint(&isaac, m)` and decrements that counter. -/
def decay_loop {Rng : Type} (isaac_next_uint : Rng → Nat → Nat × Rng) (m : Nat) :
    Nat → CounterBitSet → Rng → CounterBitSet × Rng
  | 0, counters, isaac => (counters, isaac)
  | n + 1, counters, isaac =>
    let d := isaac_next_uint isaac m
    decay_loop isaac_next_uint m n (decrement counters d.1) d.2

/-- The function `insert_sbf`. -/
def insert_sbf {Rng : Type} (isaac_next_uint : Rng → Nat → Nat × Rng)
    (XXH32 : List Nat → Nat → Nat) (sbf : SBF Rng) (data : List Nat) : SBF Rng :=
  let decayed := decay_loop isaac_next_uint sbf.m sbf.P sbf.counters sbf.isaac
  let codes := gen_k_hash32 XXH32 data sbf.K sbf.m sbf.hash_codes
  { sbf with
    isaac := decayed.2
    hash_codes := codes
    counters := (List.range sbf.K).foldl (fun c i => set_to_max c (codes.getD i 0)) decayed.1 }

/-- The function `test_sbf`: the value returned, and the filter with its scratch
buffer overwritten. -/
def test_sbf {Rng : Type} (XXH32 : List Nat → Nat → Nat) (sbf : SBF Rng) (data : List Nat) :
    Int × SBF Rng :=
  let codes := gen_k_hash32 XXH32 data sbf.K sbf.m sbf.hash_codes
  (test_loop sbf.counters codes sbf.K 0, { sbf with hash_codes := codes })

/-- The loop of `lookup_interval` from the state `(lo, hi)`. -/
def lookup_interval_loop (intervals : List ℚ) (x : ℚ) (lo hi : Nat) : Nat :=
  if hi - lo > 1 then
    let idx := lo + (hi - lo) / 2
    if x > intervals.getD idx 0 then lookup_interval_loop intervals x idx hi
    else lookup_interval_loop intervals x lo idx
  else lo
termination_by hi - lo
decreasing_by all_goals (simp_wf; omega)

/-- The function `lookup_interval`. -/
def lookup_interval (intervals : List ℚ) (len : Nat) (x : ℚ) : Nat :=
  lookup_interval_loop intervals x 0 len

/-- The struct `GSLBF`. -/
structure GSLBF (Model Rng : Type) where
  model : Model
  tau_array : List ℚ
  SBF_array : List (SBF Rng)
  g : Nat

/-- The function `init_gslbf`: `none` when some `init_sbf` exits. -/
def init_gslbf {Model Rng : Type} (rng0 : Rng) (model : Model)
    (P_array K_array m_array bits_per_counter_array : List Nat) (tau_array : List ℚ)
    (g : Nat) : Option (GSLBF Model Rng) :=
  ((List.range g).mapM fun i =>
      init_sbf rng0 (P_array.getD i 0) (K_array.getD i 0) (m_array.getD i 0)
        (bits_per_counter_array.getD i 0)).map fun SBF_array =>
    { model := model, tau_array := tau_array, SBF_array := SBF_array, g := g }

/-- The function `insert_gslbf`; `data_bytes data length` is the `length` bytes at
`data`. The result is `none` when `idx` is not the index of one of the allocated
filters, where the access `SBF_array[idx]` is undefined. -/
def insert_gslbf {Model Data Rng : Type} (predict : Model → Data → ℚ)
    (data_bytes : Data → Nat → List Nat) (isaac_next_uint : Rng → Nat → Nat × Rng)
    (XXH32 : List Nat → Nat → Nat) (gslbf : GSLBF Model Rng) (data : Data) (length : Nat) :
    Option (GSLBF Model Rng) :=
  let score := predict gslbf.model data
  let idx := lookup_interval gslbf.tau_array (gslbf.g + 1) score
  match gslbf.SBF_array[idx]? with
  | some sbf =>
    some { gslbf with
      SBF_array := gslbf.SBF_array.set idx
        (insert_sbf isaac_next_uint XXH32 sbf (data_bytes data length)) }
  | none => none

/-- The function `test_gslbf`: the value returned and the filter after the call, or
`none` when `idx` is not the index of one of the allocated filters. -/
def test_gslbf {Model Data Rng : Type} (predict : Model → Data → ℚ)
    (data_bytes : Data → Nat → List Nat) (XXH32 : List Nat → Nat → Nat)
    (gslbf : GSLBF Model Rng) (data : Data) (length : Nat) :
    Option (Int × GSLBF Model Rng) :=
  let score := predict gslbf.model data
  let idx := lookup_interval gslbf.tau_array (gslbf.g + 1) score
  match gslbf.SBF_array[idx]? with
  | some sbf =>
    let r := test_sbf XXH32 sbf (data_bytes data length)
    some (r.1, { gslbf with SBF_array := gslbf.SBF_array.set idx r.2 })
  | none => none

/-! ## Sample inputs -/

/-- A digest function used to run the filters on concrete inputs. -/
def sample_hash : List Nat → Nat → Nat := fun data seed => data.sum * 2654435761 + seed

/-- A digest function whose two digests are `2 ^ 32 - 1` (seed `RANDOM_SEED1`) and `1`
(any other seed), used to run `gen_k_hash32` where the sum `h1 + i * h2` wraps. -/
def wrap_hash : List Nat → Nat → Nat :=
  fun _ seed => if seed = RANDOM_SEED1 then 4294967295 else 1

/-- A scorer that gives every record the score `1 / 2`. -/
def half_score : Unit → Nat → ℚ := fun _ _ => 1 / 2

/-- The bytes of a record whose identifier is `d`: the four little-endian bytes of the
`unsigned int`, cut to `length`. -/
def sample_id_bytes : Nat → Nat → List Nat :=
  fun d length => ([d % 256, d / 256 % 256, d / 65536 % 256, d / 16777216 % 256]).take length

/-- A scorer that gives every record the score `9 / 10`. -/
def high_score : Unit → Nat → ℚ := fun _ _ => 9 / 10

/-- A generator used to run the stable filters on concrete inputs: a linear
congruential step on a natural-number state, the index being the new state modulo `m`. -/
def sample_rng : Nat → Nat → Nat × Nat :=
  fun state m => ((state * 1103515245 + 12345) % m, state * 1103515245 + 12345)

/-! ## The conceptual bitstream and well-formed states -/

/-- Bit `k` of the bitstream laid most-significant-bit-first over the words:
bit `31 - k % 32` of word `k / 32`. -/
def stream_bit (counters : CounterBitSet) (k : Nat) : Bool :=
  (counters.word (k / 32)).testBit (31 - k % 32)

/-- The last word counter `idx` touches lies inside the backing store. -/
def in_bounds (counters : CounterBitSet) (idx : Nat) : Prop :=
  (counters.bits_per_counter * idx + counters.bits_per_counter - 1) / 32
    < counters.raw_bits.length

/-- Some bit of counter `idx`'s bit range `[B * idx, B * idx + B)` is set. -/
def some_bit_set (counters : CounterBitSet) (idx : Nat) : Prop :=
  ∃ k, counters.bits_per_counter * idx ≤ k ∧
    k < counters.bits_per_counter * idx + counters.bits_per_counter ∧
    stream_bit counters k = true

/-- A well-formed counter array, as `init_counters` builds it and every operation
keeps it: `bits_per_counter` in `1..32`, `num_bins = ceil(size * bits_per_counter / 32)`
words, each of them a 32-bit value. -/
def CounterBitSet.WF (counters : CounterBitSet) : Prop :=
  1 ≤ counters.bits_per_counter ∧ counters.bits_per_counter ≤ 32 ∧
  counters.num_bins = (counters.size * counters.bits_per_counter + 31) / 32 ∧
  counters.raw_bits.length = counters.num_bins ∧
  ∀ w ∈ counters.raw_bits, w < 2 ^ 32

instance (counters : CounterBitSet) : Decidable counters.WF := by
  unfold CounterBitSet.WF; infer_instance

/-- A Bloom filter state as `init_bf` builds it and `insert_bf` keeps it: a
well-formed array of `m` one-bit counters and a `K`-slot scratch buffer. -/
def BF.WF (bf : BF) : Prop :=
  bf.bitset.WF ∧ bf.bitset.bits_per_counter = 1 ∧ bf.bitset.size = bf.m ∧
  bf.hash_codes.length = bf.K ∧ 1 ≤ bf.m

instance (bf : BF) : Decidable bf.WF := by
  unfold BF.WF; infer_instance

/-- A stable Bloom filter state as `init_sbf` builds it and `insert_sbf` keeps it: a
well-formed array of `m` counters and a `K`-slot scratch buffer. -/
def SBF.WF {Rng : Type} (sbf : SBF Rng) : Prop :=
  sbf.counters.WF ∧ sbf.counters.size = sbf.m ∧ sbf.hash_codes.length = sbf.K ∧ 1 ≤ sbf.m

instance {Rng : Type} (sbf : SBF Rng) : Decidable sbf.WF := by
  unfold SBF.WF; infer_instance

/-! ## Machine-integer lemmas -/

theorem to_int_emod (x : Int) : to_int x % 2 ^ 32 = x % 2 ^ 32 := by
  unfold to_int; omega

theorem to_int_of_lt (x : Int) (h0 : 0 ≤ x) (h1 : x < 2 ^ 31) : to_int x = x := by
  unfold to_int; omega

theorem to_int_eq_zero_iff (v : Nat) (hv : v < 2 ^ 32) : to_int (v : Int) = 0 ↔ v = 0 := by
  unfold to_int; omega

theorem shiftRight_five (x : Nat) : x >>> 5 = x / 32 := by
  simp [Nat.shiftRight_eq_div_pow]

theorem testBit_GEN_BITS_RANGE (l r i : Nat) (hl : l - 1 < 64) (hr : r < 64) :
    (GEN_BITS_RANGE l r).testBit i = xor (decide (i < l - 1)) (decide (i < r)) := by
  unfold GEN_BITS_RANGE to_ulong
  rw [Nat.one_shiftLeft, Nat.one_shiftLeft,
    Nat.mod_eq_of_lt (Nat.pow_lt_pow_right (by norm_num) hl),
    Nat.mod_eq_of_lt (Nat.pow_lt_pow_right (by norm_num) hr),
    Nat.testBit_xor, Nat.testBit_two_pow_sub_one, Nat.testBit_two_pow_sub_one]

theorem GEN_BITS_RANGE_lt (l r : Nat) (hl : l - 1 ≤ 32) (hr : r ≤ 32) :
    GEN_BITS_RANGE l r < 2 ^ 32 := by
  apply Nat.lt_pow_two_of_testBit
  intro i hi
  rw [testBit_GEN_BITS_RANGE l r i (by omega) (by omega)]
  have h1 : ¬ i < l - 1 := by omega
  have h2 : ¬ i < r := by omega
  simp [h1, h2]

theorem testBit_ulong_not (x i : Nat) :
    (ulong_not x).testBit i = (decide (i < 64) && !(to_ulong x).testBit i) := by
  unfold ulong_not
  have hx : to_ulong x < 2 ^ 64 := Nat.mod_lt _ (by norm_num)
  rw [Nat.sub_sub, Nat.add_comm 1, Nat.testBit_two_pow_sub_succ hx]

/-! ## Words and stream bits -/

theorem word_set_word (c : CounterBitSet) (j v i : Nat) :
    (c.set_word j v).word i = if j = i ∧ j < c.raw_bits.length then v else c.word i := by
  unfold CounterBitSet.set_word CounterBitSet.word
  simp only [List.getD_eq_getElem?_getD, List.getElem?_set]
  by_cases h : j = i
  · subst h
    by_cases h2 : j < c.raw_bits.length
    · simp [h2]
    · have : c.raw_bits[j]? = none := by simp; omega
      simp [h2, this]
  · simp [h]

theorem get_counter_ulong_testBit (c : CounterBitSet) (idx i : Nat)
    (hB1 : 1 ≤ c.bits_per_counter) (hB2 : c.bits_per_counter ≤ 32) :
    (get_counter_ulong c idx).testBit i =
      (decide (i < c.bits_per_counter) &&
        stream_bit c (c.bits_per_counter * idx + c.bits_per_counter - 1 - i)) := by
  unfold get_counter_ulong get_bin_range stream_bit BIN_BITS
  generalize c.bits_per_counter * idx = s
  generalize c.bits_per_counter = B at *
  simp only [shiftRight_five]
  split_ifs with h
  · rw [Nat.testBit_shiftRight, Nat.testBit_and, testBit_GEN_BITS_RANGE _ _ _ (by omega) (by omega)]
    by_cases hi : i < B
    · have e1 : (s + B - 1 - i) / 32 = s / 32 := by omega
      have e2 : 31 - (s + B - 1 - i) % 32 = 32 - (s + B - 1) % 32 - 1 + i := by omega
      have e3 : ¬ (32 - (s + B - 1) % 32 - 1 + i < 32 - (s + B - 1) % 32 - 1) := by omega
      have e4 : 32 - (s + B - 1) % 32 - 1 + i < 32 - s % 32 := by omega
      simp [hi, e1, e2, e3, e4]
    · have e3 : ¬ (32 - (s + B - 1) % 32 - 1 + i < 32 - (s + B - 1) % 32 - 1) := by omega
      have e4 : ¬ 32 - (s + B - 1) % 32 - 1 + i < 32 - s % 32 := by omega
      simp [hi, e3, e4]
  · unfold to_ulong
    rw [Nat.testBit_or, Nat.testBit_mod_two_pow, Nat.testBit_shiftLeft, Nat.testBit_shiftRight,
      Nat.testBit_and, Nat.testBit_and,
      testBit_GEN_BITS_RANGE _ _ _ (by omega) (by omega),
      testBit_GEN_BITS_RANGE _ _ _ (by omega) (by omega)]
    have hq : (s + B - 1) / 32 = s / 32 + 1 := by omega
    by_cases hi : i < B
    · by_cases hlo : i < 32 - (32 - (s + B - 1) % 32) + 1
      · -- low part, second word
        have e1 : (s + B - 1 - i) / 32 = s / 32 + 1 := by omega
        have e2 : 31 - (s + B - 1 - i) % 32 = 32 - (s + B - 1) % 32 - 1 + i := by omega
        have e3 : ¬ (32 - (s + B - 1) % 32 - 1 + i < 32 - (s + B - 1) % 32 - 1) := by omega
        have e4 : 32 - (s + B - 1) % 32 - 1 + i < 32 := by omega
        have e5 : ¬ (i ≥ 32 - (32 - (s + B - 1) % 32) + 1) := by omega
        simp [hi, hq, e1, e2, e3, e4, e5]
      · have e1 : (s + B - 1 - i) / 32 = s / 32 := by omega
        have e2 : 31 - (s + B - 1 - i) % 32 = i - (32 - (32 - (s + B - 1) % 32) + 1) := by omega
        have e4 : ¬ (32 - (s + B - 1) % 32 - 1 + i < 32) := by omega
        have e5 : (i ≥ 32 - (32 - (s + B - 1) % 32) + 1) := by omega
        have e6 : i - (32 - (32 - (s + B - 1) % 32) + 1) < 32 - s % 32 := by omega
        have e7 : i < 64 := by omega
        simp [hi, hq, e1, e2, e4, e5, e6, e7]
    · have e4 : ¬ (32 - (s + B - 1) % 32 - 1 + i < 32) := by omega
      have e6 : ¬ i - (32 - (32 - (s + B - 1) % 32) + 1) < 32 - s % 32 := by omega
      simp [hi, e4, e6]

theorem stream_bit_set_word (c : CounterBitSet) (j v k : Nat) :
    stream_bit (c.set_word j v) k =
      if j = k / 32 ∧ j < c.raw_bits.length then v.testBit (31 - k % 32) else stream_bit c k := by
  unfold stream_bit
  rw [word_set_word]
  split_ifs <;> rfl

@[simp] theorem length_set_word (c : CounterBitSet) (j v : Nat) :
    (c.set_word j v).raw_bits.length = c.raw_bits.length := by
  simp [CounterBitSet.set_word]

theorem testBit_to_uint32 (x i : Nat) :
    (to_uint32 x).testBit i = (decide (i < 32) && x.testBit i) := by
  unfold to_uint32
  rw [Nat.testBit_mod_two_pow]

theorem stream_bit_set_to_max (c : CounterBitSet) (idx k : Nat)
    (hB1 : 1 ≤ c.bits_per_counter) (hB2 : c.bits_per_counter ≤ 32) (hin : in_bounds c idx) :
    stream_bit (set_to_max c idx) k =
      (stream_bit c k || decide (c.bits_per_counter * idx ≤ k ∧
        k < c.bits_per_counter * idx + c.bits_per_counter)) := by
  unfold in_bounds at hin
  unfold set_to_max get_bin_range BIN_BITS
  generalize c.bits_per_counter * idx = s at *
  generalize c.bits_per_counter = B at *
  simp only [shiftRight_five]
  split_ifs with h
  · rw [stream_bit_set_word]
    split_ifs with h2
    · rw [testBit_to_uint32, Nat.testBit_or, testBit_GEN_BITS_RANGE _ _ _ (by omega) (by omega)]
      unfold stream_bit
      rw [← h2.1]
      have e1 : 31 - k % 32 < 32 := by omega
      by_cases hk : s ≤ k ∧ k < s + B
      · have e2 : ¬ (31 - k % 32 < 32 - (s + B - 1) % 32 - 1) := by omega
        have e3 : 31 - k % 32 < 32 - s % 32 := by omega
        simp [e1, e2, e3, hk]
      · have e2 : (31 - k % 32 < 32 - (s + B - 1) % 32 - 1) ↔ (31 - k % 32 < 32 - s % 32) := by
          omega
        simp [e1, e2, hk]
    · have hk : ¬ (s ≤ k ∧ k < s + B) := by omega
      simp [hk]
  · have hq : (s + B - 1) / 32 = s / 32 + 1 := by omega
    rw [stream_bit_set_word, stream_bit_set_word, word_set_word, length_set_word]
    have hne : ¬ (s / 32 = (s + B - 1) / 32 ∧ s / 32 < c.raw_bits.length) := by omega
    rw [if_neg hne]
    have e1 : 31 - k % 32 < 32 := by omega
    by_cases hk2 : (s + B - 1) / 32 = k / 32
    · rw [if_pos ⟨hk2, hin⟩, testBit_to_uint32, Nat.testBit_or,
        testBit_GEN_BITS_RANGE _ _ _ (by omega) (by omega)]
      unfold stream_bit
      rw [← hk2]
      by_cases hk : s ≤ k ∧ k < s + B
      · have e2 : ¬ (31 - k % 32 < 32 - (s + B - 1) % 32 - 1) := by omega
        simp [e1, e2, hk]
      · have e2 : (31 - k % 32 < 32 - (s + B - 1) % 32 - 1) := by omega
        simp [e1, e2, hk]
    · rw [if_neg (fun h' => hk2 h'.1)]
      by_cases hk1 : s / 32 = k / 32
      · rw [if_pos ⟨hk1, by omega⟩, testBit_to_uint32, Nat.testBit_or,
          testBit_GEN_BITS_RANGE _ _ _ (by omega) (by omega)]
        unfold stream_bit
        rw [← hk1]
        by_cases hk : s ≤ k ∧ k < s + B
        · have e3 : 31 - k % 32 < 32 - s % 32 := by omega
          simp [e1, e3, hk]
        · have e3 : ¬ 31 - k % 32 < 32 - s % 32 := by omega
          simp [e1, e3, hk]
      · rw [if_neg (fun h' => hk1 h'.1)]
        have hk : ¬ (s ≤ k ∧ k < s + B) := by omega
        simp [hk]

theorem in_bounds_of_WF (c : CounterBitSet) (idx : Nat) (hwf : c.WF) (hidx : idx < c.size) :
    in_bounds c idx := by
  obtain ⟨hB1, hB2, hbins, hlen, -⟩ := hwf
  unfold in_bounds
  rw [hlen, hbins]
  have h1 : c.bits_per_counter * (idx + 1) ≤ c.bits_per_counter * c.size :=
    Nat.mul_le_mul_left _ hidx
  rw [Nat.mul_add, Nat.mul_one, Nat.mul_comm c.bits_per_counter c.size] at h1
  generalize c.bits_per_counter * idx = s at *
  generalize c.size * c.bits_per_counter = t at *
  omega

theorem ne_zero_iff_exists_testBit (x : Nat) : x ≠ 0 ↔ ∃ p, x.testBit p = true := by
  constructor
  · exact Nat.ne_zero_implies_bit_true
  · rintro ⟨p, hp⟩ rfl
    simp at hp

theorem and_GEN_ne_zero_iff (w l r : Nat) (hl : l - 1 < 64) (hr : r < 64) (hlr : l - 1 ≤ r) :
    w &&& GEN_BITS_RANGE l r ≠ 0 ↔ ∃ p, l - 1 ≤ p ∧ p < r ∧ w.testBit p = true := by
  rw [ne_zero_iff_exists_testBit]
  constructor
  · rintro ⟨p, hp⟩
    rw [Nat.testBit_and, testBit_GEN_BITS_RANGE _ _ _ hl hr] at hp
    refine ⟨p, ?_⟩
    by_cases h1 : p < l - 1 <;> by_cases h2 : p < r <;> simp [h1, h2] at hp
    · omega
    · exact ⟨by omega, h2, hp⟩
  · rintro ⟨p, h1, h2, h3⟩
    refine ⟨p, ?_⟩
    rw [Nat.testBit_and, testBit_GEN_BITS_RANGE _ _ _ hl hr]
    have : ¬ p < l - 1 := by omega
    simp [h3, h2, this]

theorem get_counter_ulong_lt (c : CounterBitSet) (idx : Nat)
    (hB1 : 1 ≤ c.bits_per_counter) (hB2 : c.bits_per_counter ≤ 32) :
    get_counter_ulong c idx < 2 ^ c.bits_per_counter := by
  apply Nat.lt_pow_two_of_testBit
  intro i hi
  rw [get_counter_ulong_testBit c idx i hB1 hB2]
  have : ¬ i < c.bits_per_counter := by omega
  simp [this]

theorem get_counter_ulong_ne_zero_iff (c : CounterBitSet) (idx : Nat)
    (hB1 : 1 ≤ c.bits_per_counter) (hB2 : c.bits_per_counter ≤ 32) :
    get_counter_ulong c idx ≠ 0 ↔ some_bit_set c idx := by
  rw [ne_zero_iff_exists_testBit]
  unfold some_bit_set
  constructor
  · rintro ⟨i, hi⟩
    rw [get_counter_ulong_testBit c idx i hB1 hB2] at hi
    simp only [Bool.and_eq_true, decide_eq_true_eq] at hi
    exact ⟨_, by omega, by omega, hi.2⟩
  · rintro ⟨k, h1, h2, h3⟩
    refine ⟨c.bits_per_counter * idx + c.bits_per_counter - 1 - k, ?_⟩
    rw [get_counter_ulong_testBit c idx _ hB1 hB2]
    have e : c.bits_per_counter * idx + c.bits_per_counter - 1 -
        (c.bits_per_counter * idx + c.bits_per_counter - 1 - k) = k := by omega
    have e2 : c.bits_per_counter * idx + c.bits_per_counter - 1 - k < c.bits_per_counter := by
      omega
    simp [e, e2, h3]

theorem test_counter_ne_zero_iff (c : CounterBitSet) (idx : Nat)
    (hB1 : 1 ≤ c.bits_per_counter) (hB2 : c.bits_per_counter ≤ 32) :
    test_counter c idx ≠ 0 ↔ some_bit_set c idx := by
  unfold test_counter get_bin_range some_bit_set stream_bit BIN_BITS
  generalize c.bits_per_counter * idx = s at *
  generalize c.bits_per_counter = B at *
  simp only [shiftRight_five]
  by_cases h : s / 32 = (s + B - 1) / 32
  · rw [if_pos h]
    have hlt : c.word (s / 32) &&& GEN_BITS_RANGE (32 - (s + B - 1) % 32) (32 - s % 32) < 2 ^ 32 :=
      Nat.and_lt_two_pow _ (GEN_BITS_RANGE_lt _ _ (by omega) (by omega))
    rw [Ne, to_int_eq_zero_iff _ hlt, ← Ne, and_GEN_ne_zero_iff _ _ _ (by omega) (by omega) (by omega)]
    constructor
    · rintro ⟨p, h1, h2, h3⟩
      refine ⟨32 * (s / 32) + (31 - p), by omega, by omega, ?_⟩
      have e1 : (32 * (s / 32) + (31 - p)) / 32 = s / 32 := by omega
      have e2 : 31 - (32 * (s / 32) + (31 - p)) % 32 = p := by omega
      rw [e1, e2]; exact h3
    · rintro ⟨k, h1, h2, h3⟩
      have e1 : k / 32 = s / 32 := by omega
      rw [e1] at h3
      exact ⟨31 - k % 32, by omega, by omega, h3⟩
  · rw [if_neg h]
    have hq : (s + B - 1) / 32 = s / 32 + 1 := by omega
    have key : (c.word (s / 32) &&& GEN_BITS_RANGE 1 (32 - s % 32) ≠ 0 ∨
        c.word ((s + B - 1) / 32) &&& GEN_BITS_RANGE (32 - (s + B - 1) % 32) 32 ≠ 0) ↔
        ∃ k, s ≤ k ∧ k < s + B ∧ (c.word (k / 32)).testBit (31 - k % 32) = true := by
      rw [and_GEN_ne_zero_iff _ _ _ (by omega) (by omega) (by omega),
        and_GEN_ne_zero_iff _ _ _ (by omega) (by omega) (by omega)]
      constructor
      · rintro (⟨p, h1, h2, h3⟩ | ⟨p, h1, h2, h3⟩)
        · refine ⟨32 * (s / 32) + (31 - p), by omega, by omega, ?_⟩
          have e1 : (32 * (s / 32) + (31 - p)) / 32 = s / 32 := by omega
          have e2 : 31 - (32 * (s / 32) + (31 - p)) % 32 = p := by omega
          rw [e1, e2]; exact h3
        · refine ⟨32 * (s / 32 + 1) + (31 - p), by omega, by omega, ?_⟩
          have e1 : (32 * (s / 32 + 1) + (31 - p)) / 32 = (s + B - 1) / 32 := by omega
          have e2 : 31 - (32 * (s / 32 + 1) + (31 - p)) % 32 = p := by omega
          rw [e1, e2]; exact h3
      · rintro ⟨k, h1, h2, h3⟩
        by_cases hk : k / 32 = s / 32
        · left
          rw [hk] at h3
          exact ⟨31 - k % 32, by omega, by omega, h3⟩
        · right
          have hk2 : k / 32 = (s + B - 1) / 32 := by omega
          rw [hk2] at h3
          exact ⟨31 - k % 32, by omega, by omega, h3⟩
    rw [← key]
    split_ifs with h2
    · simp [h2]
    · simp [h2]

theorem int_to_uint32_int_shl (v n : Nat) (hv : 1 ≤ v) :
    int_to_uint32 (int_shl (to_int (to_int (v : Int) - 1)) n) = to_uint32 ((v - 1) <<< n) := by
  unfold int_to_uint32 int_shl to_uint32
  rw [to_int_emod]
  have h : to_int (to_int (v : Int) - 1) % 2 ^ 32 = ((v - 1 : Nat) : Int) % 2 ^ 32 := by
    unfold to_int; omega
  have h2 : (to_int (to_int (v : Int) - 1) * 2 ^ n) % 2 ^ 32 =
      (((v - 1 : Nat) : Int) * 2 ^ n) % 2 ^ 32 := Int.ModEq.mul_right _ h
  rw [h2, Nat.shiftLeft_eq]
  have h3 : (((v - 1 : Nat) : Int) * 2 ^ n) % 2 ^ 32 = (((v - 1) * 2 ^ n % 2 ^ 32 : Nat) : Int) := by
    push_cast; rfl
  rw [h3, Int.toNat_natCast]

theorem int_to_uint32_int_shr (v n : Nat) (hv : 1 ≤ v) (hv2 : v < 2 ^ 31) :
    int_to_uint32 (int_shr (to_int (to_int (v : Int) - 1)) n) = to_uint32 ((v - 1) >>> n) := by
  unfold int_to_uint32 int_shr to_uint32
  have h : to_int (to_int (v : Int) - 1) = ((v - 1 : Nat) : Int) := by
    unfold to_int; omega
  rw [h, Nat.shiftRight_eq_div_pow]
  have h3 : (((v - 1 : Nat) : Int) / 2 ^ n) % 2 ^ 32 = (((v - 1) / 2 ^ n % 2 ^ 32 : Nat) : Int) := by
    push_cast; rfl
  rw [h3, Int.toNat_natCast]

theorem testBit_pred_of_le (v B i : Nat) (hv : v < 2 ^ B) (hi : B ≤ i) :
    (v - 1).testBit i = false := by
  apply Nat.testBit_lt_two_pow
  calc v - 1 < 2 ^ B := by omega
    _ ≤ 2 ^ i := Nat.pow_le_pow_right (by norm_num) hi

theorem stream_bit_decrement (c : CounterBitSet) (idx k : Nat)
    (hB1 : 1 ≤ c.bits_per_counter) (hB2 : c.bits_per_counter ≤ 32) (hin : in_bounds c idx)
    (hv : get_counter_ulong c idx ≠ 0) :
    stream_bit (decrement c idx) k =
      if c.bits_per_counter * idx ≤ k ∧ k < c.bits_per_counter * idx + c.bits_per_counter then
        (get_counter_ulong c idx - 1).testBit
          (c.bits_per_counter * idx + c.bits_per_counter - 1 - k)
      else stream_bit c k := by
  have htest : test_counter c idx ≠ 0 :=
    (test_counter_ne_zero_iff c idx hB1 hB2).2 ((get_counter_ulong_ne_zero_iff c idx hB1 hB2).1 hv)
  have hvlt := get_counter_ulong_lt c idx hB1 hB2
  have hal : c.bits_per_counter = 32 → (c.bits_per_counter * idx) % 32 = 0 := by
    intro h; rw [h]; exact Nat.mul_mod_right 32 idx
  have hv1 : 1 ≤ get_counter_ulong c idx := Nat.one_le_iff_ne_zero.2 hv
  unfold in_bounds at hin
  unfold decrement
  rw [if_pos htest]
  unfold get_counter get_bin_range BIN_BITS
  generalize get_counter_ulong c idx = v at *
  generalize c.bits_per_counter * idx = s at *
  generalize c.bits_per_counter = B at *
  simp only [shiftRight_five]
  have e1 : 31 - k % 32 < 32 := by omega
  by_cases h : s / 32 = (s + B - 1) / 32
  · rw [if_pos h, int_to_uint32_int_shl v _ hv1]
    simp only [stream_bit_set_word, word_set_word, length_set_word]
    by_cases hk1 : s / 32 = k / 32
    · have hq : s / 32 < c.raw_bits.length := by omega
      have hq2 : k / 32 < c.raw_bits.length := by omega
      unfold stream_bit
      simp only [← hk1, hq, hq2, true_and, and_self, if_true]
      rw [Nat.testBit_or, testBit_to_uint32, testBit_to_uint32, Nat.testBit_and, testBit_ulong_not,
        Nat.testBit_shiftLeft]
      unfold to_ulong
      rw [Nat.testBit_mod_two_pow, testBit_GEN_BITS_RANGE _ _ _ (by omega) (by omega)]
      by_cases hk : s ≤ k ∧ k < s + B
      · have e2 : ¬ (31 - k % 32 < 32 - (s + B - 1) % 32 - 1) := by omega
        have e3 : 31 - k % 32 < 32 - s % 32 := by omega
        have e4 : 31 - k % 32 < 64 := by omega
        have e5 : 31 - k % 32 ≥ 32 - (s + B - 1) % 32 - 1 := by omega
        have e6 : 31 - k % 32 - (32 - (s + B - 1) % 32 - 1) = s + B - 1 - k := by omega
        simp [e1, e2, e3, e4, e5, e6, hk]
      · have e4 : 31 - k % 32 < 64 := by omega
        have e2 : (31 - k % 32 < 32 - (s + B - 1) % 32 - 1) ↔ (31 - k % 32 < 32 - s % 32) := by
          omega
        have e7 : (decide (31 - k % 32 ≥ 32 - (s + B - 1) % 32 - 1) &&
            (v - 1).testBit (31 - k % 32 - (32 - (s + B - 1) % 32 - 1))) = false := by
          by_cases e5 : 31 - k % 32 ≥ 32 - (s + B - 1) % 32 - 1
          · rw [testBit_pred_of_le v B _ hvlt (by omega)]; simp
          · simp [e5]
        rw [e7]
        simp [e1, e2, e4, hk]
    · have hne : ¬ (s / 32 = k / 32 ∧ s / 32 < c.raw_bits.length) := fun h' => hk1 h'.1
      have hk : ¬ (s ≤ k ∧ k < s + B) := by omega
      simp only [hne, if_false, hk]
  · rw [if_neg h]
    have hq : (s + B - 1) / 32 = s / 32 + 1 := by omega
    have hB31 : v < 2 ^ 31 :=
      lt_of_lt_of_le hvlt (Nat.pow_le_pow_right (by norm_num) (by omega))
    rw [int_to_uint32_int_shl v _ hv1, int_to_uint32_int_shr v _ hv1 hB31]
    simp only [stream_bit_set_word, word_set_word, length_set_word]
    have hq1 : s / 32 < c.raw_bits.length := by omega
    have hne : ¬ (s / 32 = (s + B - 1) / 32) := h
    by_cases hk2 : (s + B - 1) / 32 = k / 32
    · have hk1 : ¬ s / 32 = k / 32 := by omega
      unfold stream_bit
      simp only [← hk2, hin, hq1, hne, hk1, true_and, and_self, and_true, if_true, false_and,
        if_false]
      rw [Nat.testBit_or, testBit_to_uint32, testBit_to_uint32, Nat.testBit_and, testBit_ulong_not,
        Nat.testBit_shiftLeft]
      unfold to_ulong
      rw [Nat.testBit_mod_two_pow, testBit_GEN_BITS_RANGE _ _ _ (by omega) (by omega)]
      have e4 : 31 - k % 32 < 64 := by omega
      by_cases hk : s ≤ k ∧ k < s + B
      · have e2 : ¬ (31 - k % 32 < 32 - (s + B - 1) % 32 - 1) := by omega
        have e5 : 31 - k % 32 ≥ 32 - (s + B - 1) % 32 - 1 := by omega
        have e6 : 31 - k % 32 - (32 - (s + B - 1) % 32 - 1) = s + B - 1 - k := by omega
        simp [e1, e2, e4, e5, e6, hk]
      · have e2 : (31 - k % 32 < 32 - (s + B - 1) % 32 - 1) := by omega
        have e5 : ¬ 31 - k % 32 ≥ 32 - (s + B - 1) % 32 - 1 := by omega
        simp [e1, e2, e4, e5, hk]
    · by_cases hk1 : s / 32 = k / 32
      · have hne2 : ¬ (s + B - 1) / 32 = s / 32 := fun h' => h h'.symm
        unfold stream_bit
        simp only [← hk1, hin, hq1, hne, hne2, true_and, and_self, and_true, if_true, false_and,
          if_false]
        rw [Nat.testBit_or, testBit_to_uint32, testBit_to_uint32, Nat.testBit_and,
          testBit_ulong_not, Nat.testBit_shiftRight]
        unfold to_ulong
        rw [Nat.testBit_mod_two_pow, testBit_GEN_BITS_RANGE _ _ _ (by omega) (by omega)]
        have e4 : 31 - k % 32 < 64 := by omega
        by_cases hk : s ≤ k ∧ k < s + B
        · have e3 : 31 - k % 32 < 32 - s % 32 := by omega
          have e6 : 32 - (32 - (s + B - 1) % 32) + 1 + (31 - k % 32) = s + B - 1 - k := by omega
          simp [e1, e3, e4, e6, hk]
        · have e3 : ¬ 31 - k % 32 < 32 - s % 32 := by omega
          rw [testBit_pred_of_le v B _ hvlt (by omega)]
          simp [e1, e3, e4, hk]
      · have hk : ¬ (s ≤ k ∧ k < s + B) := by omega
        simp only [hk1, hk2, false_and, if_false, hk]

theorem to_uint32_lt (x : Nat) : to_uint32 x < 2 ^ 32 := Nat.mod_lt _ (by norm_num)

theorem WF_set_word (c : CounterBitSet) (j v : Nat) (hwf : c.WF) (hv : v < 2 ^ 32) :
    (c.set_word j v).WF := by
  obtain ⟨h1, h2, h3, h4, h5⟩ := hwf
  refine ⟨h1, h2, h3, ?_, ?_⟩
  · rw [length_set_word]; exact h4
  · intro w hw
    rcases List.mem_or_eq_of_mem_set hw with h | h
    · exact h5 w h
    · rw [h]; exact hv

theorem set_to_max_WF (c : CounterBitSet) (idx : Nat) (hwf : c.WF) : (set_to_max c idx).WF := by
  unfold set_to_max
  dsimp only
  split_ifs
  · exact WF_set_word _ _ _ hwf (to_uint32_lt _)
  · exact WF_set_word _ _ _ (WF_set_word _ _ _ hwf (to_uint32_lt _)) (to_uint32_lt _)

@[simp] theorem set_to_max_bits_per_counter (c : CounterBitSet) (idx : Nat) :
    (set_to_max c idx).bits_per_counter = c.bits_per_counter := by
  unfold set_to_max; dsimp only; split_ifs <;> rfl

@[simp] theorem set_to_max_size (c : CounterBitSet) (idx : Nat) :
    (set_to_max c idx).size = c.size := by
  unfold set_to_max; dsimp only; split_ifs <;> rfl

@[simp] theorem set_to_max_num_bins (c : CounterBitSet) (idx : Nat) :
    (set_to_max c idx).num_bins = c.num_bins := by
  unfold set_to_max; dsimp only; split_ifs <;> rfl

@[simp] theorem set_to_max_length (c : CounterBitSet) (idx : Nat) :
    (set_to_max c idx).raw_bits.length = c.raw_bits.length := by
  unfold set_to_max; dsimp only; split_ifs <;> simp only [length_set_word]

@[simp] theorem decrement_bits_per_counter (c : CounterBitSet) (idx : Nat) :
    (decrement c idx).bits_per_counter = c.bits_per_counter := by
  unfold decrement; dsimp only; split_ifs <;> rfl

@[simp] theorem decrement_size (c : CounterBitSet) (idx : Nat) :
    (decrement c idx).size = c.size := by
  unfold decrement; dsimp only; split_ifs <;> rfl

@[simp] theorem decrement_num_bins (c : CounterBitSet) (idx : Nat) :
    (decrement c idx).num_bins = c.num_bins := by
  unfold decrement; dsimp only; split_ifs <;> rfl

@[simp] theorem decrement_length (c : CounterBitSet) (idx : Nat) :
    (decrement c idx).raw_bits.length = c.raw_bits.length := by
  unfold decrement; dsimp only; split_ifs <;> simp only [length_set_word]

theorem in_bounds_set_to_max (c : CounterBitSet) (i j : Nat) (h : in_bounds c j) :
    in_bounds (set_to_max c i) j := by
  unfold in_bounds at *; simpa using h

theorem in_bounds_decrement (c : CounterBitSet) (i j : Nat) (h : in_bounds c j) :
    in_bounds (decrement c i) j := by
  unfold in_bounds at *; simpa using h

/-- The counter read after `set_to_max`, before the conversion to `int`. -/
theorem get_counter_ulong_set_to_max_self (c : CounterBitSet) (idx : Nat)
    (hB1 : 1 ≤ c.bits_per_counter) (hB2 : c.bits_per_counter ≤ 32) (hin : in_bounds c idx) :
    get_counter_ulong (set_to_max c idx) idx = 2 ^ c.bits_per_counter - 1 := by
  apply Nat.eq_of_testBit_eq
  intro i
  rw [get_counter_ulong_testBit _ _ _ (by simpa using hB1) (by simpa using hB2),
    Nat.testBit_two_pow_sub_one, set_to_max_bits_per_counter,
    stream_bit_set_to_max c idx _ hB1 hB2 hin]
  by_cases hi : i < c.bits_per_counter
  · have : c.bits_per_counter * idx ≤ c.bits_per_counter * idx + c.bits_per_counter - 1 - i ∧
        c.bits_per_counter * idx + c.bits_per_counter - 1 - i <
          c.bits_per_counter * idx + c.bits_per_counter := by omega
    simp [hi, this]
  · simp [hi]

/-- A nonzero counter read after `decrement` is one less, before the conversion to `int`. -/
theorem get_counter_ulong_decrement_self (c : CounterBitSet) (idx : Nat)
    (hB1 : 1 ≤ c.bits_per_counter) (hB2 : c.bits_per_counter ≤ 32) (hin : in_bounds c idx)
    (hv : get_counter_ulong c idx ≠ 0) :
    get_counter_ulong (decrement c idx) idx = get_counter_ulong c idx - 1 := by
  apply Nat.eq_of_testBit_eq
  intro i
  rw [get_counter_ulong_testBit _ _ _ (by simpa using hB1) (by simpa using hB2),
    decrement_bits_per_counter, stream_bit_decrement c idx _ hB1 hB2 hin hv]
  by_cases hi : i < c.bits_per_counter
  · have h1 : c.bits_per_counter * idx ≤ c.bits_per_counter * idx + c.bits_per_counter - 1 - i ∧
        c.bits_per_counter * idx + c.bits_per_counter - 1 - i <
          c.bits_per_counter * idx + c.bits_per_counter := by omega
    have h2 : c.bits_per_counter * idx + c.bits_per_counter - 1 -
        (c.bits_per_counter * idx + c.bits_per_counter - 1 - i) = i := by omega
    simp [hi, h1, h2]
  · rw [testBit_pred_of_le _ _ i (get_counter_ulong_lt c idx hB1 hB2) (by omega)]
    simp [hi]

/-- A counter that reads zero is left alone by `decrement`. -/
theorem decrement_of_zero (c : CounterBitSet) (idx : Nat)
    (h : test_counter c idx = 0) : decrement c idx = c := by
  unfold decrement
  simp [h]

theorem foldl_set_length (f : Nat → Nat) (k : Nat) (hc : List Nat) :
    ((List.range k).foldl (fun codes i => codes.set i (f i)) hc).length = hc.length := by
  induction k with
  | zero => simp
  | succ n ih => rw [List.range_succ, List.foldl_append]; simpa using ih

theorem foldl_set_getElem? (f : Nat → Nat) (k : Nat) (hc : List Nat) (hk : k ≤ hc.length)
    (i : Nat) (hi : i < k) :
    ((List.range k).foldl (fun codes i => codes.set i (f i)) hc)[i]? = some (f i) := by
  induction k with
  | zero => omega
  | succ n ih =>
    rw [List.range_succ, List.foldl_append]
    simp only [List.foldl_cons, List.foldl_nil, List.getElem?_set]
    by_cases h : n = i
    · subst h
      simp [foldl_set_length]; omega
    · rw [if_neg h]
      exact ih (by omega) (by omega)

theorem gen_k_hash32_length (XXH32 : List Nat → Nat → Nat) (data : List Nat) (k m : Nat)
    (hc : List Nat) : (gen_k_hash32 XXH32 data k m hc).length = hc.length := by
  unfold gen_k_hash32
  exact foldl_set_length _ _ _

theorem gen_k_hash32_getD (XXH32 : List Nat → Nat → Nat) (data : List Nat) (k m : Nat)
    (hc : List Nat) (hk : k ≤ hc.length) (i : Nat) (hi : i < k) :
    (gen_k_hash32 XXH32 data k m hc).getD i 0 =
      probe (to_uint32 (XXH32 data RANDOM_SEED1)) (to_uint32 (XXH32 data RANDOM_SEED2)) m i := by
  unfold gen_k_hash32
  rw [List.getD_eq_getElem?_getD, foldl_set_getElem? _ k hc hk i hi]
  rfl

theorem gen_k_hash32_congr (XXH32 : List Nat → Nat → Nat) (data : List Nat) (k m : Nat)
    (hc1 hc2 : List Nat) (h1 : hc1.length = k) (h2 : hc2.length = k) :
    gen_k_hash32 XXH32 data k m hc1 = gen_k_hash32 XXH32 data k m hc2 := by
  apply List.ext_getElem?
  intro i
  unfold gen_k_hash32
  by_cases hi : i < k
  · rw [foldl_set_getElem? _ k hc1 (by omega) i hi, foldl_set_getElem? _ k hc2 (by omega) i hi]
  · rw [List.getElem?_eq_none (by rw [foldl_set_length]; omega),
      List.getElem?_eq_none (by rw [foldl_set_length]; omega)]

theorem probe_lt (h1 h2 m i : Nat) (hm : 1 ≤ m) : probe h1 h2 m i < m :=
  Nat.mod_lt _ hm

/-! ## Folding `set_to_max` over a list of probes -/

theorem foldl_set_to_max_WF (L : List Nat) (c : CounterBitSet) (hwf : c.WF) :
    (L.foldl set_to_max c).WF := by
  induction L generalizing c with
  | nil => exact hwf
  | cons p L ih => exact ih _ (set_to_max_WF c p hwf)

@[simp] theorem foldl_set_to_max_bits_per_counter (L : List Nat) (c : CounterBitSet) :
    (L.foldl set_to_max c).bits_per_counter = c.bits_per_counter := by
  induction L generalizing c with
  | nil => rfl
  | cons p L ih => rw [List.foldl_cons, ih]; simp

@[simp] theorem foldl_set_to_max_size (L : List Nat) (c : CounterBitSet) :
    (L.foldl set_to_max c).size = c.size := by
  induction L generalizing c with
  | nil => rfl
  | cons p L ih => rw [List.foldl_cons, ih]; simp

@[simp] theorem foldl_set_to_max_num_bins (L : List Nat) (c : CounterBitSet) :
    (L.foldl set_to_max c).num_bins = c.num_bins := by
  induction L generalizing c with
  | nil => rfl
  | cons p L ih => rw [List.foldl_cons, ih]; simp

@[simp] theorem foldl_set_to_max_length (L : List Nat) (c : CounterBitSet) :
    (L.foldl set_to_max c).raw_bits.length = c.raw_bits.length := by
  induction L generalizing c with
  | nil => rfl
  | cons p L ih => rw [List.foldl_cons, ih]; simp

theorem stream_bit_foldl_set_to_max (L : List Nat) (c : CounterBitSet) (k : Nat)
    (hB1 : 1 ≤ c.bits_per_counter) (hB2 : c.bits_per_counter ≤ 32)
    (hin : ∀ p ∈ L, in_bounds c p) :
    stream_bit (L.foldl set_to_max c) k =
      (stream_bit c k || L.any fun p => decide (c.bits_per_counter * p ≤ k ∧
        k < c.bits_per_counter * p + c.bits_per_counter)) := by
  induction L generalizing c with
  | nil => simp
  | cons p L ih =>
    rw [List.foldl_cons, ih (set_to_max c p) (by simpa using hB1) (by simpa using hB2)
      (fun q hq => in_bounds_set_to_max c p q (hin q (List.mem_cons_of_mem _ hq))),
      stream_bit_set_to_max c p k hB1 hB2 (hin p (List.mem_cons_self _ _))]
    simp [Bool.or_assoc]

/-- Two arrays of 32-bit words of the same length with the same bitstream are equal. -/
theorem raw_bits_ext (c1 c2 : CounterBitSet) (hlen : c1.raw_bits.length = c2.raw_bits.length)
    (h1 : ∀ w ∈ c1.raw_bits, w < 2 ^ 32) (h2 : ∀ w ∈ c2.raw_bits, w < 2 ^ 32)
    (hs : ∀ k, stream_bit c1 k = stream_bit c2 k) : c1.raw_bits = c2.raw_bits := by
  apply List.ext_getElem hlen
  intro j hj1 hj2
  apply Nat.eq_of_testBit_eq
  intro t
  by_cases ht : t < 32
  · have := hs (32 * j + (31 - t))
    unfold stream_bit CounterBitSet.word at this
    have e1 : (32 * j + (31 - t)) / 32 = j := by omega
    have e2 : 31 - (32 * j + (31 - t)) % 32 = t := by omega
    rw [e1, e2, List.getD_eq_getElem?_getD, List.getD_eq_getElem?_getD,
      List.getElem?_eq_getElem hj1, List.getElem?_eq_getElem hj2] at this
    simpa using this
  · have hle : 2 ^ 32 ≤ 2 ^ t := Nat.pow_le_pow_right (by norm_num) (by omega)
    rw [Nat.testBit_lt_two_pow (lt_of_lt_of_le (h1 _ (List.getElem_mem hj1)) hle),
      Nat.testBit_lt_two_pow (lt_of_lt_of_le (h2 _ (List.getElem_mem hj2)) hle)]

theorem CounterBitSet.ext_stream (c1 c2 : CounterBitSet) (hw1 : c1.WF) (hw2 : c2.WF)
    (hsize : c1.size = c2.size) (hB : c1.bits_per_counter = c2.bits_per_counter)
    (hs : ∀ k, stream_bit c1 k = stream_bit c2 k) : c1 = c2 := by
  have hbins : c1.num_bins = c2.num_bins := by
    rw [hw1.2.2.1, hw2.2.2.1, hsize, hB]
  have hlen : c1.raw_bits.length = c2.raw_bits.length := by
    rw [hw1.2.2.2.1, hw2.2.2.2.1, hbins]
  have hraw := raw_bits_ext c1 c2 hlen hw1.2.2.2.2 hw2.2.2.2.2 hs
  cases c1; cases c2
  simp only [CounterBitSet.mk.injEq]
  exact ⟨hraw, hsize, hB, hbins⟩

/-! ## The Bloom filter -/

theorem mem_probes_lt (XXH32 : List Nat → Nat → Nat) (data : List Nat) (k m : Nat) (hm : 1 ≤ m)
    (p : Nat) (hp : p ∈ probes XXH32 data k m) : p < m := by
  unfold probes at hp
  obtain ⟨i, -, rfl⟩ := List.mem_map.1 hp
  exact probe_lt _ _ _ _ hm

theorem insert_bf_bitset (XXH32 : List Nat → Nat → Nat) (bf : BF) (data : List Nat)
    (hlen : bf.hash_codes.length = bf.K) :
    (insert_bf XXH32 bf data).bitset = (probes XXH32 data bf.K bf.m).foldl set_to_max bf.bitset := by
  unfold insert_bf probes
  dsimp only
  rw [List.foldl_map]
  apply List.foldl_ext
  intro bs i hi
  rw [gen_k_hash32_getD XXH32 data bf.K bf.m bf.hash_codes (by omega) i (List.mem_range.1 hi)]

@[simp] theorem insert_bf_K (XXH32 : List Nat → Nat → Nat) (bf : BF) (data : List Nat) :
    (insert_bf XXH32 bf data).K = bf.K := rfl

@[simp] theorem insert_bf_m (XXH32 : List Nat → Nat → Nat) (bf : BF) (data : List Nat) :
    (insert_bf XXH32 bf data).m = bf.m := rfl

theorem insert_bf_hash_codes (XXH32 : List Nat → Nat → Nat) (bf : BF) (data : List Nat) :
    (insert_bf XXH32 bf data).hash_codes = gen_k_hash32 XXH32 data bf.K bf.m bf.hash_codes := rfl

theorem insert_bf_WF (XXH32 : List Nat → Nat → Nat) (bf : BF) (data : List Nat) (hwf : bf.WF) :
    (insert_bf XXH32 bf data).WF := by
  obtain ⟨h1, h2, h3, h4, h5⟩ := hwf
  refine ⟨?_, ?_, ?_, ?_, h5⟩
  · rw [insert_bf_bitset _ _ _ h4]; exact foldl_set_to_max_WF _ _ h1
  · rw [insert_bf_bitset _ _ _ h4]; simpa using h2
  · rw [insert_bf_bitset _ _ _ h4]; simpa using h3
  · rw [insert_bf_hash_codes, gen_k_hash32_length]; exact h4

theorem init_bf_WF (K m : Nat) (hm : 1 ≤ m) (bf : BF) (h : init_bf K m = some bf) : bf.WF := by
  unfold init_bf init_counters MAX_BITS_PER_COUNTER BIN_BITS at h
  simp only [gt_iff_lt, show ¬ (32 < 1) by omega, if_false, Option.map_some',
    Option.some.injEq] at h
  subst h
  refine ⟨⟨le_refl _, by norm_num, ?_, ?_, ?_⟩, rfl, rfl, ?_, hm⟩
  · simp
  · simp
  · intro w hw
    rw [(List.mem_replicate.1 hw).2]; norm_num
  · simp

theorem in_bounds_of_BF (bf : BF) (hwf : bf.WF) (p : Nat) (hp : p < bf.m) :
    in_bounds bf.bitset p :=
  in_bounds_of_WF _ _ hwf.1 (by rw [hwf.2.2.1]; exact hp)

/-- The bitstream after `insert_bf`: the old bits, and the bits at the probes. -/
theorem stream_bit_insert_bf (XXH32 : List Nat → Nat → Nat) (bf : BF) (data : List Nat)
    (hwf : bf.WF) (k : Nat) :
    stream_bit (insert_bf XXH32 bf data).bitset k =
      (stream_bit bf.bitset k || decide (k ∈ probes XXH32 data bf.K bf.m)) := by
  rw [insert_bf_bitset _ _ _ hwf.2.2.2.1,
    stream_bit_foldl_set_to_max _ _ k (by rw [hwf.2.1]) (by rw [hwf.2.1]; norm_num)
      (fun p hp => in_bounds_of_BF bf hwf p (mem_probes_lt _ _ _ _ hwf.2.2.2.2 p hp))]
  congr 1
  rw [hwf.2.1, Bool.eq_iff_iff]
  simp only [List.any_eq_true, decide_eq_true_eq]
  constructor
  · rintro ⟨p, hp, h1, h2⟩
    have : k = p := by omega
    rw [this]; exact hp
  · intro hk
    exact ⟨k, hk, by omega, by omega⟩

theorem test_loop_eq_one_iff (c : CounterBitSet) (codes : List Nat) (n i : Nat) :
    test_loop c codes n i = 1 ↔ ∀ t, t < n → test_counter c (codes.getD (i + t) 0) ≠ 0 := by
  induction n generalizing i with
  | zero => simp [test_loop]
  | succ n ih =>
    unfold test_loop
    split_ifs with h
    · constructor
      · intro h0; exact absurd h0 (by norm_num)
      · intro h0; exact absurd h (by simpa using h0 0 (by omega))
    · rw [ih]
      constructor
      · intro h0 t ht
        rcases Nat.eq_zero_or_pos t with rfl | hpos
        · simpa using h
        · have := h0 (t - 1) (by omega)
          rwa [show i + 1 + (t - 1) = i + t by omega] at this
      · intro h0 t ht
        have := h0 (t + 1) (by omega)
        rwa [show i + (t + 1) = i + 1 + t by omega] at this

theorem test_loop_eq_zero_or_one (c : CounterBitSet) (codes : List Nat) (n i : Nat) :
    test_loop c codes n i = 0 ∨ test_loop c codes n i = 1 := by
  induction n generalizing i with
  | zero => right; rfl
  | succ n ih =>
    unfold test_loop
    split_ifs
    · left; rfl
    · exact ih _

/-- For a one-bit counter, `test_counter` reads the stream bit at the index. -/
theorem test_counter_one_bit (c : CounterBitSet) (p : Nat) (hB : c.bits_per_counter = 1) :
    test_counter c p ≠ 0 ↔ stream_bit c p = true := by
  rw [test_counter_ne_zero_iff c p (by omega) (by omega)]
  unfold some_bit_set
  rw [hB]
  constructor
  · rintro ⟨k, h1, h2, h3⟩
    have : k = p := by omega
    rwa [this] at h3
  · intro h
    exact ⟨p, by omega, by omega, h⟩

/-- What `test_bf` returns, in terms of the bitstream. -/
theorem test_bf_eq_one_iff (XXH32 : List Nat → Nat → Nat) (bf : BF) (data : List Nat)
    (hwf : bf.WF) :
    (test_bf XXH32 bf data).1 = 1 ↔
      ∀ p ∈ probes XXH32 data bf.K bf.m, stream_bit bf.bitset p = true := by
  unfold test_bf
  dsimp only
  rw [test_loop_eq_one_iff]
  unfold probes
  simp only [Nat.zero_add, List.mem_map, List.mem_range, forall_exists_index, and_imp,
    forall_apply_eq_imp_iff₂]
  constructor
  · intro h i hi
    have := h i hi
    rwa [gen_k_hash32_getD _ _ _ _ _ (by rw [hwf.2.2.2.1]) i hi,
      test_counter_one_bit _ _ hwf.2.1] at this
  · intro h i hi
    rw [gen_k_hash32_getD _ _ _ _ _ (by rw [hwf.2.2.2.1]) i hi,
      test_counter_one_bit _ _ hwf.2.1]
    exact h i hi

theorem foldl_insert_bf_WF (XXH32 : List Nat → Nat → Nat) (xs : List (List Nat)) (bf : BF)
    (hwf : bf.WF) : (xs.foldl (insert_bf XXH32) bf).WF := by
  induction xs generalizing bf with
  | nil => exact hwf
  | cons x xs ih => exact ih _ (insert_bf_WF _ _ _ hwf)

@[simp] theorem foldl_insert_bf_K (XXH32 : List Nat → Nat → Nat) (xs : List (List Nat))
    (bf : BF) : (xs.foldl (insert_bf XXH32) bf).K = bf.K := by
  induction xs generalizing bf with
  | nil => rfl
  | cons x xs ih => rw [List.foldl_cons, ih]; rfl

@[simp] theorem foldl_insert_bf_m (XXH32 : List Nat → Nat → Nat) (xs : List (List Nat))
    (bf : BF) : (xs.foldl (insert_bf XXH32) bf).m = bf.m := by
  induction xs generalizing bf with
  | nil => rfl
  | cons x xs ih => rw [List.foldl_cons, ih]; rfl

/-- Set bits are never cleared by later inserts. -/
theorem stream_bit_foldl_insert_bf (XXH32 : List Nat → Nat → Nat) (xs : List (List Nat))
    (bf : BF) (hwf : bf.WF) (k : Nat) (hk : stream_bit bf.bitset k = true) :
    stream_bit (xs.foldl (insert_bf XXH32) bf).bitset k = true := by
  induction xs generalizing bf with
  | nil => exact hk
  | cons x xs ih =>
    apply ih _ (insert_bf_WF _ _ _ hwf)
    rw [stream_bit_insert_bf _ _ _ hwf, hk]; rfl

/-! ## Reading the counters as `int` -/

/-- Up to 31 bits per counter the conversion to `int` keeps the value read. -/
theorem get_counter_eq_ulong (c : CounterBitSet) (idx : Nat)
    (hB1 : 1 ≤ c.bits_per_counter) (hB31 : c.bits_per_counter ≤ 31) :
    get_counter c idx = (get_counter_ulong c idx : Int) := by
  unfold get_counter
  have h := get_counter_ulong_lt c idx hB1 (by omega)
  have h2 : 2 ^ c.bits_per_counter ≤ 2 ^ 31 := Nat.pow_le_pow_right (by norm_num) hB31
  apply to_int_of_lt
  · omega
  · have : get_counter_ulong c idx < 2 ^ 31 := lt_of_lt_of_le h h2
    exact_mod_cast this

/-- Up to 31 bits per counter, `get_counter` after `set_to_max` is `2 ^ B - 1`. -/
theorem get_counter_set_to_max_self (c : CounterBitSet) (idx : Nat)
    (hB1 : 1 ≤ c.bits_per_counter) (hB31 : c.bits_per_counter ≤ 31) (hin : in_bounds c idx) :
    get_counter (set_to_max c idx) idx = 2 ^ c.bits_per_counter - 1 := by
  rw [get_counter_eq_ulong _ _ (by simpa using hB1) (by simpa using hB31),
    get_counter_ulong_set_to_max_self c idx hB1 (by omega) hin]
  have : 1 ≤ 2 ^ c.bits_per_counter := Nat.one_le_two_pow
  push_cast [Nat.cast_sub this]
  rfl

/-- Up to 31 bits per counter, `get_counter` of a nonzero counter after `decrement`
is one less. -/
theorem get_counter_decrement_self (c : CounterBitSet) (idx : Nat)
    (hB1 : 1 ≤ c.bits_per_counter) (hB31 : c.bits_per_counter ≤ 31) (hin : in_bounds c idx)
    (ht : test_counter c idx ≠ 0) :
    get_counter (decrement c idx) idx = get_counter c idx - 1 := by
  have hv : get_counter_ulong c idx ≠ 0 :=
    (get_counter_ulong_ne_zero_iff c idx hB1 (by omega)).2
      ((test_counter_ne_zero_iff c idx hB1 (by omega)).1 ht)
  rw [get_counter_eq_ulong _ _ (by simpa using hB1) (by simpa using hB31),
    get_counter_eq_ulong _ _ hB1 hB31,
    get_counter_ulong_decrement_self c idx hB1 (by omega) hin hv]
  have : 1 ≤ get_counter_ulong c idx := Nat.one_le_iff_ne_zero.2 hv
  push_cast [Nat.cast_sub this]
  rfl

/-- The value read, before conversion to `int`, after `n` decrements. -/
theorem get_counter_ulong_iterate_decrement (c : CounterBitSet) (idx n : Nat)
    (hB1 : 1 ≤ c.bits_per_counter) (hB2 : c.bits_per_counter ≤ 32) (hin : in_bounds c idx) :
    get_counter_ulong ((fun d => decrement d idx)^[n] c) idx = get_counter_ulong c idx - n := by
  induction n generalizing c with
  | zero => rfl
  | succ n ih =>
    rw [Function.iterate_succ_apply,
      ih (decrement c idx) (by simpa using hB1) (by simpa using hB2)
        (in_bounds_decrement c idx idx hin)]
    by_cases hv : get_counter_ulong c idx = 0
    · have ht : test_counter c idx = 0 := by
        by_contra hne
        exact (get_counter_ulong_ne_zero_iff c idx hB1 hB2).2
          ((test_counter_ne_zero_iff c idx hB1 hB2).1 hne) hv
      rw [decrement_of_zero c idx ht, hv]
      omega
    · rw [get_counter_ulong_decrement_self c idx hB1 hB2 hin hv]
      omega

@[simp] theorem iterate_decrement_bits_per_counter (c : CounterBitSet) (idx n : Nat) :
    ((fun d => decrement d idx)^[n] c).bits_per_counter = c.bits_per_counter := by
  induction n generalizing c with
  | zero => rfl
  | succ n ih => rw [Function.iterate_succ_apply, ih]; simp

/-- Up to 31 bits per counter: after `n` decrements of a counter set to max,
`get_counter` returns `2 ^ B - 1 - n` cut at 0, and `test_counter` is zero from
`n = 2 ^ B - 1` on. -/
theorem get_counter_iterate_decrement_from_max (c : CounterBitSet) (idx n : Nat)
    (hB1 : 1 ≤ c.bits_per_counter) (hB31 : c.bits_per_counter ≤ 31) (hin : in_bounds c idx) :
    get_counter ((fun d => decrement d idx)^[n] (set_to_max c idx)) idx =
        ((2 ^ c.bits_per_counter - 1 - n : Nat) : Int) ∧
      (2 ^ c.bits_per_counter - 1 ≤ n →
        test_counter ((fun d => decrement d idx)^[n] (set_to_max c idx)) idx = 0) := by
  have hval := get_counter_ulong_iterate_decrement (set_to_max c idx) idx n
    (by simpa using hB1) (by simp; omega) (in_bounds_set_to_max c idx idx hin)
  rw [get_counter_ulong_set_to_max_self c idx hB1 (by omega) hin] at hval
  constructor
  · rw [get_counter_eq_ulong _ _ (by simpa using hB1) (by simpa using hB31), hval]
  · intro hn
    by_contra hne
    have h1 := (test_counter_ne_zero_iff _ idx (by simpa using hB1) (by simp; omega)).1 hne
    have h2 := (get_counter_ulong_ne_zero_iff _ idx (by simpa using hB1) (by simp; omega)).2 h1
    rw [hval] at h2
    omega

/-! ## The learned Bloom filter -/

theorem insert_lbf_bf {Model Data : Type} (predict : Model → Data → ℚ)
    (id_bytes : Data → Nat → List Nat) (XXH32 : List Nat → Nat → Nat)
    (lbf : LBF Model) (data : Data) (length : Nat) :
    (insert_lbf predict id_bytes XXH32 lbf data length).bf =
      if predict lbf.model data < lbf.tau then insert_bf XXH32 lbf.bf (id_bytes data length)
      else lbf.bf := by
  unfold insert_lbf
  split_ifs <;> rfl

@[simp] theorem insert_lbf_model {Model Data : Type} (predict : Model → Data → ℚ)
    (id_bytes : Data → Nat → List Nat) (XXH32 : List Nat → Nat → Nat)
    (lbf : LBF Model) (data : Data) (length : Nat) :
    (insert_lbf predict id_bytes XXH32 lbf data length).model = lbf.model := by
  unfold insert_lbf
  split_ifs <;> rfl

@[simp] theorem insert_lbf_tau {Model Data : Type} (predict : Model → Data → ℚ)
    (id_bytes : Data → Nat → List Nat) (XXH32 : List Nat → Nat → Nat)
    (lbf : LBF Model) (data : Data) (length : Nat) :
    (insert_lbf predict id_bytes XXH32 lbf data length).tau = lbf.tau := by
  unfold insert_lbf
  split_ifs <;> rfl

theorem insert_lbf_WF {Model Data : Type} (predict : Model → Data → ℚ)
    (id_bytes : Data → Nat → List Nat) (XXH32 : List Nat → Nat → Nat)
    (lbf : LBF Model) (data : Data) (length : Nat) (hwf : lbf.bf.WF) :
    (insert_lbf predict id_bytes XXH32 lbf data length).bf.WF := by
  rw [insert_lbf_bf]
  split_ifs
  · exact insert_bf_WF _ _ _ hwf
  · exact hwf

theorem stream_bit_insert_lbf {Model Data : Type} (predict : Model → Data → ℚ)
    (id_bytes : Data → Nat → List Nat) (XXH32 : List Nat → Nat → Nat)
    (lbf : LBF Model) (data : Data) (length : Nat) (hwf : lbf.bf.WF) (k : Nat)
    (hk : stream_bit lbf.bf.bitset k = true) :
    stream_bit (insert_lbf predict id_bytes XXH32 lbf data length).bf.bitset k = true := by
  rw [insert_lbf_bf]
  split_ifs
  · rw [stream_bit_insert_bf _ _ _ hwf, hk]; rfl
  · exact hk

theorem foldl_insert_lbf_spec {Model Data : Type} (predict : Model → Data → ℚ)
    (id_bytes : Data → Nat → List Nat) (XXH32 : List Nat → Nat → Nat)
    (later : List (Data × Nat)) (lbf : LBF Model) (hwf : lbf.bf.WF) :
    let lbf1 := later.foldl (fun l r => insert_lbf predict id_bytes XXH32 l r.1 r.2) lbf
    lbf1.bf.WF ∧ lbf1.model = lbf.model ∧ lbf1.tau = lbf.tau ∧ lbf1.bf.K = lbf.bf.K ∧
      lbf1.bf.m = lbf.bf.m ∧
      ∀ k, stream_bit lbf.bf.bitset k = true → stream_bit lbf1.bf.bitset k = true := by
  induction later generalizing lbf with
  | nil => exact ⟨hwf, rfl, rfl, rfl, rfl, fun _ h => h⟩
  | cons r later ih =>
    obtain ⟨h1, h2, h3, h4, h5, h6⟩ := ih (insert_lbf predict id_bytes XXH32 lbf r.1 r.2)
      (insert_lbf_WF _ _ _ _ _ _ hwf)
    refine ⟨h1, ?_, ?_, ?_, ?_, ?_⟩
    · rw [List.foldl_cons, h2, insert_lbf_model]
    · rw [List.foldl_cons, h3, insert_lbf_tau]
    · rw [List.foldl_cons, h4, insert_lbf_bf]; split_ifs <;> rfl
    · rw [List.foldl_cons, h5, insert_lbf_bf]; split_ifs <;> rfl
    · intro k hk
      exact h6 k (stream_bit_insert_lbf _ _ _ _ _ _ hwf k hk)

/-! ## The bisection of `lookup_interval` -/

/-- What the loop returns from a state with `lo < hi`: an index `r` in `[lo, hi)` that is
`lo` or has `intervals[r] < x`, and with `r + 1 = hi` or `x ≤ intervals[r + 1]`. -/
theorem lookup_interval_loop_spec (intervals : List ℚ) (x : ℚ) (lo hi : Nat) (h : lo < hi) :
    lo ≤ lookup_interval_loop intervals x lo hi ∧
    lookup_interval_loop intervals x lo hi < hi ∧
    (lookup_interval_loop intervals x lo hi = lo ∨
      intervals.getD (lookup_interval_loop intervals x lo hi) 0 < x) ∧
    (lookup_interval_loop intervals x lo hi + 1 = hi ∨
      x ≤ intervals.getD (lookup_interval_loop intervals x lo hi + 1) 0) := by
  obtain ⟨n, hn⟩ : ∃ n, hi - lo = n := ⟨_, rfl⟩
  induction n using Nat.strong_induction_on generalizing lo hi with
  | _ n ih =>
    rw [lookup_interval_loop]
    by_cases hgt : hi - lo > 1
    · rw [if_pos hgt]
      dsimp only
      by_cases hx : x > intervals.getD (lo + (hi - lo) / 2) 0
      · rw [if_pos hx]
        obtain ⟨h1, h2, h3, h4⟩ := ih (hi - (lo + (hi - lo) / 2)) (by omega)
          (lo + (hi - lo) / 2) hi (by omega) rfl
        refine ⟨by omega, h2, ?_, h4⟩
        right
        rcases h3 with h3 | h3
        · rw [h3]; exact hx
        · exact h3
      · rw [if_neg hx]
        obtain ⟨h1, h2, h3, h4⟩ := ih ((lo + (hi - lo) / 2) - lo) (by omega)
          lo (lo + (hi - lo) / 2) (by omega) rfl
        refine ⟨h1, by omega, h3, ?_⟩
        right
        rcases h4 with h4 | h4
        · rw [h4]; exact not_lt.1 hx
        · exact h4
    · rw [if_neg hgt]
      exact ⟨le_refl _, h, Or.inl rfl, Or.inl (by omega)⟩

/-- The index returned is at most `g`. -/
theorem lookup_interval_le (intervals : List ℚ) (g : Nat) (x : ℚ) :
    lookup_interval intervals (g + 1) x ≤ g := by
  unfold lookup_interval
  have := (lookup_interval_loop_spec intervals x 0 (g + 1) (by omega)).2.1
  omega

/-- A score not above the last threshold is sent to one of the `g` groups. -/
theorem lookup_interval_lt (intervals : List ℚ) (g : Nat) (x : ℚ) (hg : 1 ≤ g)
    (hx : x ≤ intervals.getD g 0) : lookup_interval intervals (g + 1) x < g := by
  unfold lookup_interval
  obtain ⟨-, h2, h3, -⟩ := lookup_interval_loop_spec intervals x 0 (g + 1) (by omega)
  by_contra hge
  have hr : lookup_interval_loop intervals x 0 (g + 1) = g := by omega
  rw [hr] at h3
  rcases h3 with h3 | h3
  · omega
  · exact absurd hx (not_le.2 h3)

/-- On a non-decreasing threshold array a score above the last threshold is sent to the
index `g`, one past the last group. -/
theorem lookup_interval_eq_g (intervals : List ℚ) (g : Nat) (x : ℚ)
    (hmono : ∀ i j, i ≤ j → j ≤ g → intervals.getD i 0 ≤ intervals.getD j 0)
    (hx : intervals.getD g 0 < x) : lookup_interval intervals (g + 1) x = g := by
  unfold lookup_interval
  obtain ⟨-, h2, -, h4⟩ := lookup_interval_loop_spec intervals x 0 (g + 1) (by omega)
  rcases h4 with h4 | h4
  · omega
  · by_cases hr : lookup_interval_loop intervals x 0 (g + 1) = g
    · exact hr
    · have := hmono (lookup_interval_loop intervals x 0 (g + 1) + 1) g (by omega) (le_refl _)
      exact absurd (lt_of_lt_of_le hx h4) (not_lt.2 this)

/-! ## Construction -/

theorem init_counters_eq_some (size B : Nat) (hB : B ≤ 32) :
    init_counters size B =
      some ⟨List.replicate ((size * B + 31) / 32) 0, size, B, (size * B + 31) / 32⟩ := by
  unfold init_counters MAX_BITS_PER_COUNTER BIN_BITS
  rw [if_neg (by omega)]
  have e : size * B + 32 - 1 = size * B + 31 := by omega
  simp only [e]

theorem mapM_option_some {α β : Type} (f : α → Option β) (l : List α)
    (h : ∀ a ∈ l, ∃ b, f a = some b) : ∃ bs, l.mapM f = some bs ∧ bs.length = l.length := by
  induction l with
  | nil => exact ⟨[], rfl, rfl⟩
  | cons a l ih =>
    obtain ⟨b, hb⟩ := h a (List.mem_cons_self _ _)
    obtain ⟨bs, hbs, hlen⟩ := ih (fun a' ha' => h a' (List.mem_cons_of_mem _ ha'))
    refine ⟨b :: bs, ?_, by simp [hlen]⟩
    rw [List.mapM_cons, hb, hbs]
    rfl

theorem init_sbf_eq_some {Rng : Type} (rng0 : Rng) (P K m B : Nat) (hB : B ≤ 32) :
    ∃ sbf, init_sbf rng0 P K m B = some sbf := by
  unfold init_sbf
  rw [init_counters_eq_some m B hB]
  exact ⟨_, rfl⟩

/-! ## Fresh arrays and word bounds -/

/-- When group `idx = lookup_interval(tau_array, g + 1, predict(data))` is one of the
allocated filters, `insert_gslbf` replaces `SBF_array[idx]` by what `insert_sbf` gives on
the `length` bytes at `data`, leaves every other group's SBF, the model, the thresholds and
`g` as they were, and `test_gslbf` on the same data (before or after the insert) returns
what `test_sbf` returns on group `idx`. -/
theorem gslbf_routes_to_one_group {Model Data Rng : Type} (predict : Model → Data → ℚ)
    (data_bytes : Data → Nat → List Nat) (isaac_next_uint : Rng → Nat → Nat × Rng)
    (XXH32 : List Nat → Nat → Nat) (G : GSLBF Model Rng) (data : Data) (length : Nat)
    (sbf : SBF Rng)
    (hsel : G.SBF_array[lookup_interval G.tau_array (G.g + 1) (predict G.model data)]? =
      some sbf) :
    ∃ G', insert_gslbf predict data_bytes isaac_next_uint XXH32 G data length = some G' ∧
      G'.SBF_array[lookup_interval G.tau_array (G.g + 1) (predict G.model data)]? =
        some (insert_sbf isaac_next_uint XXH32 sbf (data_bytes data length)) ∧
      (∀ j, j ≠ lookup_interval G.tau_array (G.g + 1) (predict G.model data) →
        G'.SBF_array[j]? = G.SBF_array[j]?) ∧
      G'.SBF_array.length = G.SBF_array.length ∧
      G'.model = G.model ∧ G'.tau_array = G.tau_array ∧ G'.g = G.g ∧
      (test_gslbf predict data_bytes XXH32 G data length).map Prod.fst =
        some (test_sbf XXH32 sbf (data_bytes data length)).1 ∧
      (test_gslbf predict data_bytes XXH32 G' data length).map Prod.fst =
        some (test_sbf XXH32 (insert_sbf isaac_next_uint XXH32 sbf (data_bytes data length))
          (data_bytes data length)).1 := by
  have hins : ∀ idx, idx = lookup_interval G.tau_array (G.g + 1) (predict G.model data) →
      insert_gslbf predict data_bytes isaac_next_uint XXH32 G data length =
        some { G with SBF_array :=
          (G.SBF_array.set idx (insert_sbf isaac_next_uint XXH32 sbf (data_bytes data length))) } := by
    intro idx hidx
    unfold insert_gslbf
    simp only [hsel, hidx]
  have htest : ∀ (G2 : GSLBF Model Rng) (sbf2 : SBF Rng),
      G2.SBF_array[lookup_interval G2.tau_array (G2.g + 1) (predict G2.model data)]? =
        some sbf2 →
      (test_gslbf predict data_bytes XXH32 G2 data length).map Prod.fst =
        some (test_sbf XXH32 sbf2 (data_bytes data length)).1 := by
    intro G2 sbf2 h2
    unfold test_gslbf
    simp only [h2, Option.map_some']
  have ht1 := htest G sbf hsel
  have ht2 : ∀ idx, idx = lookup_interval G.tau_array (G.g + 1) (predict G.model data) →
      (test_gslbf predict data_bytes XXH32 { G with SBF_array :=
          (G.SBF_array.set idx (insert_sbf isaac_next_uint XXH32 sbf (data_bytes data length))) }
        data length).map Prod.fst =
        some (test_sbf XXH32 (insert_sbf isaac_next_uint XXH32 sbf (data_bytes data length))
          (data_bytes data length)).1 := by
    intro idx hidx
    apply htest
    dsimp only
    rw [← hidx, List.getElem?_set]
    have hlt : idx < G.SBF_array.length := by
      by_contra h
      rw [← hidx, List.getElem?_eq_none (by omega)] at hsel
      exact absurd hsel (by simp)
    simp [hlt]
  generalize lookup_interval G.tau_array (G.g + 1) (predict G.model data) = idx
    at hsel hins ht2 ⊢
  have hlt : idx < G.SBF_array.length := by
    by_contra h
    rw [List.getElem?_eq_none (by omega)] at hsel
    exact absurd hsel (by simp)
  have hnew : (G.SBF_array.set idx
      (insert_sbf isaac_next_uint XXH32 sbf (data_bytes data length)))[idx]? =
      some (insert_sbf isaac_next_uint XXH32 sbf (data_bytes data length)) := by
    rw [List.getElem?_set]
    simp [hlt]
  refine ⟨_, hins idx rfl, hnew, ?_, by simp, rfl, rfl, rfl, ?_, ?_⟩
  · intro j hj
    dsimp only
    rw [List.getElem?_set, if_neg (fun h => hj h.symm)]
  · exact ht1
  · exact ht2 idx rfl

/-- Two groups, thresholds `[0, 0.3, 0.7]`: a record scored 0.5 goes to group 1 and group 0
is left as it was. -/
theorem gslbf_routes_to_one_group_example :
    ∃ G', insert_gslbf half_score sample_id_bytes sample_rng sample_hash
        (⟨(), [0, 3 / 10, 7 / 10],
          [⟨⟨[0], 8, 3, 1⟩, 0, [0, 0], 1, 2, 8, 0⟩, ⟨⟨[0], 8, 3, 1⟩, 0, [0, 0], 1, 2, 8, 0⟩],
          2⟩ : GSLBF Unit Nat) 7 4 = some G' ∧
      G'.SBF_array[0]? = some ⟨⟨[0], 8, 3, 1⟩, 0, [0, 0], 1, 2, 8, 0⟩ := by
  have h : lookup_interval [0, 3 / 10, 7 / 10] (2 + 1) (1 / 2) = 1 := by
    unfold lookup_interval
    rw [lookup_interval_loop]; norm_num
    rw [lookup_interval_loop]; norm_num
    rw [lookup_interval_loop]; norm_num
  obtain ⟨G', h1, -, h3, -⟩ := gslbf_routes_to_one_group half_score sample_id_bytes
    sample_rng sample_hash
    (⟨(), [0, 3 / 10, 7 / 10],
      [⟨⟨[0], 8, 3, 1⟩, 0, [0, 0], 1, 2, 8, 0⟩, ⟨⟨[0], 8, 3, 1⟩, 0, [0, 0], 1, 2, 8, 0⟩],
      2⟩ : GSLBF Unit Nat) 7 4 ⟨⟨[0], 8, 3, 1⟩, 0, [0, 0], 1, 2, 8, 0⟩
    (by simp only [half_score]; rw [h]; rfl)
  refine ⟨G', h1, ?_⟩
  rw [h3 0 (by simp only [half_score]; rw [h]; decide)]
  rfl

/-- On a filter with `g ≥ 1` allocated groups, a record whose score is not above the last
threshold is routed to an allocated group. -/
theorem gslbf_selected_group_exists {Model Data Rng : Type} (predict : Model → Data → ℚ)
    (G : GSLBF Model Rng) (data : Data) (hlen : G.SBF_array.length = G.g) (hg : 1 ≤ G.g)
    (hscore : predict G.model data ≤ G.tau_array.getD G.g 0) :
    ∃ sbf, G.SBF_array[lookup_interval G.tau_array (G.g + 1) (predict G.model data)]? =
      some sbf := by
  have hlt := lookup_interval_lt G.tau_array G.g (predict G.model data) hg hscore
  exact ⟨_, List.getElem?_eq_getElem (by omega)⟩

/-- C1: a Bloom filter built by `init_bf K m` with `K ≥ 1`, `m ≥ 1` exists, and in every
state reached from it by inserts, `test_bf x` returns 1 right after `insert_bf x` and still
returns 1 after any further list of inserts; a set bit of the array stays set. -/
theorem C1_bf_no_false_negatives (XXH32 : List Nat → Nat → Nat) (K m : Nat) (_hK : 1 ≤ K)
    (hm : 1 ≤ m) :
    ∃ bf0, init_bf K m = some bf0 ∧
      ∀ (earlier later : List (List Nat)) (x : List Nat),
        (test_bf XXH32 (insert_bf XXH32 (earlier.foldl (insert_bf XXH32) bf0) x) x).1 = 1 ∧
        (test_bf XXH32 (later.foldl (insert_bf XXH32)
          (insert_bf XXH32 (earlier.foldl (insert_bf XXH32) bf0) x)) x).1 = 1 ∧
        ∀ k, stream_bit (insert_bf XXH32 (earlier.foldl (insert_bf XXH32) bf0) x).bitset k = true →
          stream_bit (later.foldl (insert_bf XXH32)
            (insert_bf XXH32 (earlier.foldl (insert_bf XXH32) bf0) x)).bitset k = true := by
  have hsome : ∃ bf0, init_bf K m = some bf0 := by
    unfold init_bf init_counters MAX_BITS_PER_COUNTER
    simp
  obtain ⟨bf0, h0⟩ := hsome
  refine ⟨bf0, h0, ?_⟩
  intro earlier later x
  have hwf0 : bf0.WF := init_bf_WF K m hm bf0 h0
  have hwf1 : (earlier.foldl (insert_bf XXH32) bf0).WF := foldl_insert_bf_WF _ _ _ hwf0
  have hwf2 := insert_bf_WF XXH32 _ x hwf1
  have hset : ∀ p ∈ probes XXH32 x (earlier.foldl (insert_bf XXH32) bf0).K
      (earlier.foldl (insert_bf XXH32) bf0).m,
      stream_bit (insert_bf XXH32 (earlier.foldl (insert_bf XXH32) bf0) x).bitset p = true := by
    intro p hp
    rw [stream_bit_insert_bf _ _ _ hwf1, decide_eq_true hp, Bool.or_true]
  refine ⟨?_, ?_, ?_⟩
  · rw [test_bf_eq_one_iff _ _ _ hwf2]
    exact hset
  · rw [test_bf_eq_one_iff _ _ _ (foldl_insert_bf_WF _ _ _ hwf2)]
    intro p hp
    apply stream_bit_foldl_insert_bf _ _ _ hwf2
    apply hset
    simpa using hp
  · intro k hk
    exact stream_bit_foldl_insert_bf _ _ _ hwf2 k hk

/-- Witness for C1: the filter `init_bf 2 5` builds, the bytes `[7]`, a later insert of `[2]`. -/
theorem C1_bf_no_false_negatives_witness :
    ∃ bf0, init_bf 2 5 = some bf0 ∧
      (test_bf sample_hash (insert_bf sample_hash bf0 [7]) [7]).1 = 1 ∧
      (test_bf sample_hash (insert_bf sample_hash (insert_bf sample_hash bf0 [7]) [2]) [7]).1 = 1 := by
  obtain ⟨bf0, h0, h⟩ := C1_bf_no_false_negatives sample_hash 2 5 (by decide) (by decide)
  exact ⟨bf0, h0, (h [] [] [7]).1, (h [] [[2]] [7]).2.1⟩

/-- C2: with `bits_per_counter = 32` the read after `set_to_max` is the `int` -1, not
`2 ^ 32 - 1`: on the array `init_counters(1, 32)` builds, `set_to_max(0)` makes the word
`0xFFFFFFFF` and `get_counter(0)` returns it converted to `int`. -/
theorem C2_get_counter_after_set_to_max_32_bits :
    ∃ c, init_counters 1 32 = some c ∧ (set_to_max c 0).raw_bits = [0xFFFFFFFF] ∧
      get_counter (set_to_max c 0) 0 = -1 ∧ get_counter (set_to_max c 0) 0 ≠ 2 ^ 32 - 1 := by
  refine ⟨⟨[0], 1, 32, 1⟩, by decide, by decide, by decide, by decide⟩

/-- C3: with `bits_per_counter = 32` and the word `0x80000000`, `test_counter` is nonzero,
`get_counter` returns the `int` `-2 ^ 31`, and after `decrement` it returns `2 ^ 31 - 1`,
which is not the value before minus 1. -/
theorem C3_decrement_at_32_bits :
    test_counter ⟨[0x80000000], 1, 32, 1⟩ 0 ≠ 0 ∧
    get_counter ⟨[0x80000000], 1, 32, 1⟩ 0 = -2147483648 ∧
    (decrement ⟨[0x80000000], 1, 32, 1⟩ 0).raw_bits = [0x7FFFFFFF] ∧
    get_counter (decrement ⟨[0x80000000], 1, 32, 1⟩ 0) 0 = 2147483647 ∧
    get_counter (decrement ⟨[0x80000000], 1, 32, 1⟩ 0) 0 ≠
      get_counter ⟨[0x80000000], 1, 32, 1⟩ 0 - 1 := by
  refine ⟨by decide, by decide, by decide, by decide, by decide⟩

/-- C4: with `bits_per_counter = 32`, the value `get_counter` returns for a counter set
to max is -1, and after one `decrement` it is -2: both are below 0. -/
theorem C4_read_below_zero_at_32_bits :
    ∃ c, init_counters 1 32 = some c ∧
      get_counter (set_to_max c 0) 0 = -1 ∧
      get_counter (decrement (set_to_max c 0) 0) 0 = -2 ∧
      get_counter ((fun d => decrement d 0)^[1] (set_to_max c 0)) 0 < 0 := by
  refine ⟨⟨[0], 1, 32, 1⟩, by decide, by decide, by decide, by decide⟩

/-- C6: on every Bloom filter state, a second `insert_bf` of the same bytes changes
nothing: the words of the counter array, and the whole filter state, are those left by
the first insert. -/
theorem C6_insert_bf_idempotent (XXH32 : List Nat → Nat → Nat) (bf : BF) (x : List Nat)
    (hwf : bf.WF) :
    (insert_bf XXH32 (insert_bf XXH32 bf x) x).bitset.raw_bits =
        (insert_bf XXH32 bf x).bitset.raw_bits ∧
      insert_bf XXH32 (insert_bf XXH32 bf x) x = insert_bf XXH32 bf x := by
  have hwf1 := insert_bf_WF XXH32 bf x hwf
  have hwf2 := insert_bf_WF XXH32 _ x hwf1
  have hbits : (insert_bf XXH32 (insert_bf XXH32 bf x) x).bitset = (insert_bf XXH32 bf x).bitset := by
    apply CounterBitSet.ext_stream _ _ hwf2.1 hwf1.1
    · rw [hwf2.2.2.1, hwf1.2.2.1]; rfl
    · rw [hwf2.2.1, hwf1.2.1]
    · intro k
      rw [stream_bit_insert_bf _ _ _ hwf1, stream_bit_insert_bf _ _ _ hwf]
      simp [Bool.or_assoc]
  have hcodes : (insert_bf XXH32 (insert_bf XXH32 bf x) x).hash_codes =
      (insert_bf XXH32 bf x).hash_codes := by
    rw [insert_bf_hash_codes, insert_bf_hash_codes]
    exact gen_k_hash32_congr _ _ _ _ _ _ hwf1.2.2.2.1 hwf.2.2.2.1
  refine ⟨by rw [hbits], ?_⟩
  have hK : (insert_bf XXH32 (insert_bf XXH32 bf x) x).K = (insert_bf XXH32 bf x).K := rfl
  have hm : (insert_bf XXH32 (insert_bf XXH32 bf x) x).m = (insert_bf XXH32 bf x).m := rfl
  generalize insert_bf XXH32 (insert_bf XXH32 bf x) x = a at *
  generalize insert_bf XXH32 bf x = b at *
  cases a; cases b
  simp only [BF.mk.injEq]
  exact ⟨hbits, hcodes, hK, hm⟩

/-- Witness for C6: a 40-bit filter with one bit already set, three probes. -/
theorem C6_insert_bf_idempotent_witness :
    (insert_bf sample_hash (insert_bf sample_hash ⟨⟨[0x00010000, 0], 40, 1, 2⟩, [0, 0, 0], 3, 40⟩
        [1, 2, 3]) [1, 2, 3]).bitset.raw_bits =
      (insert_bf sample_hash ⟨⟨[0x00010000, 0], 40, 1, 2⟩, [0, 0, 0], 3, 40⟩
        [1, 2, 3]).bitset.raw_bits :=
  (C6_insert_bf_idempotent sample_hash ⟨⟨[0x00010000, 0], 40, 1, 2⟩, [0, 0, 0], 3, 40⟩ [1, 2, 3]
    (by decide)).1

/-- C7: for `k ≥ 1` and `m ≥ 1`, `gen_k_hash32` fills a `k`-slot buffer with `k` values
below `m`, and the buffer it leaves does not depend on what the buffer held before: it is
a function of the data bytes, `k` and `m` alone. -/
theorem C7_gen_k_hash32_range_and_determinism (XXH32 : List Nat → Nat → Nat)
    (data : List Nat) (k m : Nat) (_hk : 1 ≤ k) (hm : 1 ≤ m) (buf1 buf2 : List Nat)
    (h1 : buf1.length = k) (h2 : buf2.length = k) :
    (gen_k_hash32 XXH32 data k m buf1).length = k ∧
    (∀ i, i < k → (gen_k_hash32 XXH32 data k m buf1).getD i 0 < m) ∧
    (∀ p ∈ gen_k_hash32 XXH32 data k m buf1, p < m) ∧
    gen_k_hash32 XXH32 data k m buf1 = gen_k_hash32 XXH32 data k m buf2 ∧
    gen_k_hash32 XXH32 data k m buf1 = probes XXH32 data k m := by
  have hlen : (gen_k_hash32 XXH32 data k m buf1).length = k := by
    rw [gen_k_hash32_length, h1]
  have hget : ∀ i, i < k → (gen_k_hash32 XXH32 data k m buf1).getD i 0 < m := by
    intro i hi
    rw [gen_k_hash32_getD _ _ _ _ _ (by omega) i hi]
    exact probe_lt _ _ _ _ hm
  refine ⟨hlen, hget, ?_, gen_k_hash32_congr _ _ _ _ _ _ h1 h2, ?_⟩
  · intro p hp
    obtain ⟨i, hi, rfl⟩ := List.getElem_of_mem hp
    have := hget i (by omega)
    rwa [List.getD_eq_getElem?_getD, List.getElem?_eq_getElem hi] at this
  · apply List.ext_getElem?
    intro i
    unfold probes
    by_cases hi : i < k
    · unfold gen_k_hash32
      rw [foldl_set_getElem? _ k buf1 (by omega) i hi]
      simp [hi]
    · rw [List.getElem?_eq_none (by omega), List.getElem?_eq_none (by simp; omega)]

/-- Witness for C7: two scratch buffers with different contents end up equal. -/
theorem C7_gen_k_hash32_range_and_determinism_witness :
    gen_k_hash32 sample_hash [1, 2, 3] 3 40 [0, 0, 0] =
      gen_k_hash32 sample_hash [1, 2, 3] 3 40 [9, 9, 9] :=
  (C7_gen_k_hash32_range_and_determinism sample_hash [1, 2, 3] 3 40 (by decide) (by decide)
    [0, 0, 0] [9, 9, 9] rfl rfl).2.2.2.1

/-- C8 (as stated, refuted): with digests `h1 = 2 ^ 32 - 1` and `h2 = 1`, `k = 2` and
`m = 3`, the value stored as probe 1 is 0, because `h1 + 1 * h2` wraps to 0 in
`unsigned int`, while `(h1 + 1 * h2) mod 3` is 1. -/
theorem C8_probe_not_plain_mod :
    to_uint32 (wrap_hash [] RANDOM_SEED1) = 4294967295 ∧
    to_uint32 (wrap_hash [] RANDOM_SEED2) = 1 ∧
    (gen_k_hash32 wrap_hash [] 2 3 [0, 0]).getD 1 0 = 0 ∧
    (to_uint32 (wrap_hash [] RANDOM_SEED1) + 1 * to_uint32 (wrap_hash [] RANDOM_SEED2)) % 3 = 1 ∧
    (gen_k_hash32 wrap_hash [] 2 3 [0, 0]).getD 1 0 ≠
      (to_uint32 (wrap_hash [] RANDOM_SEED1) + 1 * to_uint32 (wrap_hash [] RANDOM_SEED2)) % 3 := by
  refine ⟨by decide, by decide, by decide, by decide, by decide⟩

/-- C8 (amended): with `h1`, `h2` the 32-bit digests of the data under the seeds
123456789 and 987654321, `gen_k_hash32` stores as probe `i < k` the value
`((h1 + i * h2) mod 2 ^ 32) mod m`; it is `(h1 + i * h2) mod m` when `h1 + i * h2 < 2 ^ 32`. -/
theorem C8_probe_formula (XXH32 : List Nat → Nat → Nat) (data : List Nat) (k m : Nat)
    (buf : List Nat) (hbuf : buf.length = k) (i : Nat) (hi : i < k) :
    RANDOM_SEED1 = 123456789 ∧ RANDOM_SEED2 = 987654321 ∧
    (gen_k_hash32 XXH32 data k m buf).getD i 0 =
      ((to_uint32 (XXH32 data RANDOM_SEED1) + i * to_uint32 (XXH32 data RANDOM_SEED2)) % 2 ^ 32)
        % m ∧
    (to_uint32 (XXH32 data RANDOM_SEED1) + i * to_uint32 (XXH32 data RANDOM_SEED2) < 2 ^ 32 →
      (gen_k_hash32 XXH32 data k m buf).getD i 0 =
        (to_uint32 (XXH32 data RANDOM_SEED1) + i * to_uint32 (XXH32 data RANDOM_SEED2)) % m) := by
  have key : (gen_k_hash32 XXH32 data k m buf).getD i 0 =
      ((to_uint32 (XXH32 data RANDOM_SEED1) + i * to_uint32 (XXH32 data RANDOM_SEED2)) % 2 ^ 32)
        % m := by
    rw [gen_k_hash32_getD _ _ _ _ _ (by omega) i hi]
    unfold probe
    generalize to_uint32 (XXH32 data RANDOM_SEED1) = h1
    generalize to_uint32 (XXH32 data RANDOM_SEED2) = h2
    unfold to_uint32
    rw [Nat.add_mod_mod]
  refine ⟨rfl, rfl, key, ?_⟩
  intro hlt
  rw [key, Nat.mod_eq_of_lt hlt]

/-- Witness for C8: the wrapping digests `2 ^ 32 - 1` and `1`, probe 1 of 2, `m = 3`. -/
theorem C8_probe_formula_witness :
    (gen_k_hash32 wrap_hash [] 2 3 [0, 0]).getD 1 0 =
      ((to_uint32 (wrap_hash [] RANDOM_SEED1) + 1 * to_uint32 (wrap_hash [] RANDOM_SEED2))
        % 2 ^ 32) % 3 :=
  (C8_probe_formula wrap_hash [] 2 3 [0, 0] rfl 1 (by decide)).2.2.1

/-- C10 (as stated, refuted): with `tau = 1 / 2` and a record scored exactly `1 / 2`,
`insert_lbf` on the fresh filter leaves the backup Bloom filter as it was, and the
following `test_lbf` on the same record returns 0. -/
theorem C10_score_equal_tau_not_inserted :
    ∃ lbf : LBF Unit, init_lbf () 2 5 (1 / 2) = some lbf ∧
      half_score lbf.model 7 = lbf.tau ∧
      (insert_lbf half_score sample_id_bytes sample_hash lbf 7 4).bf = lbf.bf ∧
      (test_lbf half_score sample_id_bytes sample_hash
        (insert_lbf half_score sample_id_bytes sample_hash lbf 7 4) 7 4).1 = 0 := by
  refine ⟨⟨(), 1 / 2, ⟨⟨[0], 5, 1, 1⟩, [0, 0], 2, 5⟩⟩, rfl, rfl, ?_, ?_⟩
  · simp [insert_lbf, half_score]
  · simp [insert_lbf, test_lbf, half_score]
    decide

/-- C10 (amended): when a record's score equals `tau`, `insert_lbf` leaves the filter,
backup Bloom filter included, unchanged, and the following `test_lbf` does not
short-circuit: it returns what `test_bf` returns on the unchanged backup filter for the
identifier bytes. -/
theorem C10_score_equal_tau {Model Data : Type} (predict : Model → Data → ℚ)
    (id_bytes : Data → Nat → List Nat) (XXH32 : List Nat → Nat → Nat)
    (lbf : LBF Model) (data : Data) (length : Nat) (h : predict lbf.model data = lbf.tau) :
    insert_lbf predict id_bytes XXH32 lbf data length = lbf ∧
    (test_lbf predict id_bytes XXH32 (insert_lbf predict id_bytes XXH32 lbf data length)
      data length).1 = (test_bf XXH32 lbf.bf (id_bytes data length)).1 := by
  have hins : insert_lbf predict id_bytes XXH32 lbf data length = lbf := by
    unfold insert_lbf
    rw [if_neg (by rw [h]; exact lt_irrefl _)]
  refine ⟨hins, ?_⟩
  rw [hins]
  unfold test_lbf
  rw [if_neg (by rw [h]; exact lt_irrefl _)]

/-- Witness for C10: threshold and score both `1 / 2`, fresh backup filter of 5 bits. -/
theorem C10_score_equal_tau_witness :
    (insert_lbf half_score sample_id_bytes sample_hash
        ⟨(), 1 / 2, ⟨⟨[0], 5, 1, 1⟩, [0, 0], 2, 5⟩⟩ 7 4).bf =
      ⟨⟨[0], 5, 1, 1⟩, [0, 0], 2, 5⟩ :=
  congrArg LBF.bf (C10_score_equal_tau half_score sample_id_bytes sample_hash
    ⟨(), 1 / 2, ⟨⟨[0], 5, 1, 1⟩, [0, 0], 2, 5⟩⟩ 7 4 rfl).1

/-- C11: `insert_lbf` passes the backup Bloom filter through `insert_bf` on the bytes at
`&data->id` when `predict(data) < tau` and leaves the whole filter as it was when
`predict(data) ≥ tau`; so the counter array differs afterwards only if
`predict(data) < tau`. The model and the threshold never change. -/
theorem C11_insert_lbf_frame {Model Data : Type} (predict : Model → Data → ℚ)
    (id_bytes : Data → Nat → List Nat) (XXH32 : List Nat → Nat → Nat)
    (lbf : LBF Model) (data : Data) (length : Nat) :
    (predict lbf.model data < lbf.tau →
      (insert_lbf predict id_bytes XXH32 lbf data length).bf =
        insert_bf XXH32 lbf.bf (id_bytes data length)) ∧
    (predict lbf.model data ≥ lbf.tau →
      insert_lbf predict id_bytes XXH32 lbf data length = lbf ∧
      (insert_lbf predict id_bytes XXH32 lbf data length).bf.bitset.raw_bits =
        lbf.bf.bitset.raw_bits) ∧
    ((insert_lbf predict id_bytes XXH32 lbf data length).bf ≠ lbf.bf →
      predict lbf.model data < lbf.tau) ∧
    (insert_lbf predict id_bytes XXH32 lbf data length).model = lbf.model ∧
    (insert_lbf predict id_bytes XXH32 lbf data length).tau = lbf.tau := by
  have hge : predict lbf.model data ≥ lbf.tau →
      insert_lbf predict id_bytes XXH32 lbf data length = lbf := by
    intro h
    unfold insert_lbf
    rw [if_neg (not_lt.2 h)]
  refine ⟨?_, ?_, ?_, insert_lbf_model _ _ _ _ _ _, insert_lbf_tau _ _ _ _ _ _⟩
  · intro h
    rw [insert_lbf_bf, if_pos h]
  · intro h
    exact ⟨hge h, by rw [hge h]⟩
  · intro hne
    by_contra hlt
    exact hne (by rw [hge (not_lt.1 hlt)])

/-- Witness for C11: a record scored `1 / 2` under the threshold `3 / 4` is inserted in
the backup filter. -/
theorem C11_insert_lbf_frame_witness :
    (insert_lbf half_score sample_id_bytes sample_hash
        ⟨(), 3 / 4, ⟨⟨[0], 5, 1, 1⟩, [0, 0], 2, 5⟩⟩ 7 4).bf =
      insert_bf sample_hash ⟨⟨[0], 5, 1, 1⟩, [0, 0], 2, 5⟩ (sample_id_bytes 7 4) :=
  (C11_insert_lbf_frame half_score sample_id_bytes sample_hash
    ⟨(), 3 / 4, ⟨⟨[0], 5, 1, 1⟩, [0, 0], 2, 5⟩⟩ 7 4).1 (by norm_num [half_score])

/-- C12: on an LBF whose backup filter is well-formed, a record scored below `tau` tests
1 right after its `insert_lbf` and after any further list of `insert_lbf` calls; and on any
LBF, a record scored above `tau` tests 1 whatever the backup filter holds. -/
theorem C12_lbf_no_false_negatives {Model Data : Type} (predict : Model → Data → ℚ)
    (id_bytes : Data → Nat → List Nat) (XXH32 : List Nat → Nat → Nat) :
    (∀ (lbf : LBF Model) (d : Data) (length : Nat) (later : List (Data × Nat)),
      lbf.bf.WF → predict lbf.model d < lbf.tau →
      (test_lbf predict id_bytes XXH32
        (insert_lbf predict id_bytes XXH32 lbf d length) d length).1 = 1 ∧
      (test_lbf predict id_bytes XXH32
        (later.foldl (fun l r => insert_lbf predict id_bytes XXH32 l r.1 r.2)
          (insert_lbf predict id_bytes XXH32 lbf d length)) d length).1 = 1) ∧
    (∀ (lbf : LBF Model) (d : Data) (length : Nat),
      predict lbf.model d > lbf.tau →
      (test_lbf predict id_bytes XXH32 lbf d length).1 = 1) := by
  constructor
  · intro lbf d length later hwf hlt
    have key : ∀ later : List (Data × Nat),
        (test_lbf predict id_bytes XXH32
          (later.foldl (fun l r => insert_lbf predict id_bytes XXH32 l r.1 r.2)
            (insert_lbf predict id_bytes XXH32 lbf d length)) d length).1 = 1 := by
      intro later
      have hwf1 := insert_lbf_WF predict id_bytes XXH32 lbf d length hwf
      obtain ⟨h1, h2, h3, h4, h5, h6⟩ :=
        foldl_insert_lbf_spec predict id_bytes XXH32 later _ hwf1
      unfold test_lbf
      rw [h2, h3, insert_lbf_model, insert_lbf_tau, if_neg (not_lt.2 (le_of_lt hlt))]
      dsimp only
      rw [test_bf_eq_one_iff _ _ _ h1, h4, h5]
      intro p hp
      apply h6
      rw [insert_lbf_bf, if_pos hlt] at hp ⊢
      rw [stream_bit_insert_bf _ _ _ hwf]
      rw [insert_bf_K, insert_bf_m] at hp
      rw [decide_eq_true hp, Bool.or_true]
    exact ⟨key [], key later⟩
  · intro lbf d length hgt
    unfold test_lbf
    rw [if_pos hgt]

/-- Witness for C12: a record scored `1 / 2` under the threshold `3 / 4`, then another
insert. -/
theorem C12_lbf_no_false_negatives_witness :
    (test_lbf half_score sample_id_bytes sample_hash
      (insert_lbf half_score sample_id_bytes sample_hash
        (insert_lbf half_score sample_id_bytes sample_hash
          ⟨(), 3 / 4, ⟨⟨[0], 5, 1, 1⟩, [0, 0], 2, 5⟩⟩ 7 4) 9 4) 7 4).1 = 1 :=
  ((C12_lbf_no_false_negatives half_score sample_id_bytes sample_hash).1
    ⟨(), 3 / 4, ⟨⟨[0], 5, 1, 1⟩, [0, 0], 2, 5⟩⟩ 7 4 [(9, 4)] (by decide)
    (by norm_num [half_score])).2

/-- C13: for thresholds `tau` of length `g + 1`, `g ≥ 1`, and a score with
`tau[0] < score ≤ tau[g]`, `lookup_interval(tau, g + 1, score)` returns an index
`lo < g` with `tau[lo] < score ≤ tau[lo + 1]`; with `tau = [0, 0.3, 0.7, 1]` the score
0.5 gives 1 and the score 0.3 gives 0. -/
theorem C13_lookup_interval_bracket :
    (∀ (tau : List ℚ) (g : Nat) (score : ℚ), tau.length = g + 1 → 1 ≤ g →
      tau.getD 0 0 < score → score ≤ tau.getD g 0 →
      lookup_interval tau (g + 1) score < g ∧
      tau.getD (lookup_interval tau (g + 1) score) 0 < score ∧
      score ≤ tau.getD (lookup_interval tau (g + 1) score + 1) 0) ∧
    lookup_interval [0, 3 / 10, 7 / 10, 1] 4 (1 / 2) = 1 ∧
    lookup_interval [0, 3 / 10, 7 / 10, 1] 4 (3 / 10) = 0 := by
  refine ⟨?_, ?_, ?_⟩
  · intro tau g score _ hg h0 h1
    have hlt := lookup_interval_lt tau g score hg h1
    refine ⟨hlt, ?_, ?_⟩
    · unfold lookup_interval
      rcases (lookup_interval_loop_spec tau score 0 (g + 1) (by omega)).2.2.1 with h | h
      · rw [h]; exact h0
      · exact h
    · rcases (lookup_interval_loop_spec tau score 0 (g + 1) (by omega)).2.2.2 with h | h
      · unfold lookup_interval at hlt
        omega
      · exact h
  · unfold lookup_interval
    rw [lookup_interval_loop]; norm_num
    rw [lookup_interval_loop]; norm_num
    rw [lookup_interval_loop]; norm_num
  · unfold lookup_interval
    rw [lookup_interval_loop]; norm_num
    rw [lookup_interval_loop]; norm_num
    rw [lookup_interval_loop]; norm_num

/-- Witness for C13: the thresholds `[0, 0.3, 0.7, 1]` and the score 0.5. -/
theorem C13_lookup_interval_bracket_witness :
    lookup_interval [0, 3 / 10, 7 / 10, 1] (3 + 1) (1 / 2) < 3 ∧
    ([0, 3 / 10, 7 / 10, 1] : List ℚ).getD
      (lookup_interval [0, 3 / 10, 7 / 10, 1] (3 + 1) (1 / 2)) 0 < 1 / 2 ∧
    (1 / 2 : ℚ) ≤ ([0, 3 / 10, 7 / 10, 1] : List ℚ).getD
      (lookup_interval [0, 3 / 10, 7 / 10, 1] (3 + 1) (1 / 2) + 1) 0 :=
  C13_lookup_interval_bracket.1 [0, 3 / 10, 7 / 10, 1] 3 (1 / 2) rfl (by decide)
    (by norm_num) (by norm_num)

/-- C14: with the non-decreasing thresholds `[0, 0.3, 0.7]` (`g = 2`) and the score 0.9,
`lookup_interval` returns 2, which is not below `g`; `insert_gslbf` and `test_gslbf` then
index `SBF_array[2]` of a two-filter array, which the embedding reports as `none`. -/
theorem C14_lookup_interval_past_last_group :
    lookup_interval [0, 3 / 10, 7 / 10] 3 (9 / 10) = 2 ∧
    ¬ lookup_interval [0, 3 / 10, 7 / 10] 3 (9 / 10) < 2 ∧
    ∃ G : GSLBF Unit Nat,
      init_gslbf 0 () [1, 1] [2, 2] [8, 8] [3, 3] [0, 3 / 10, 7 / 10] 2 = some G ∧
      G.SBF_array.length = 2 ∧
      (insert_gslbf high_score sample_id_bytes sample_rng sample_hash G 7 4).isNone = true ∧
      (test_gslbf high_score sample_id_bytes sample_hash G 7 4).isNone = true := by
  have h : lookup_interval [0, 3 / 10, 7 / 10] 3 (9 / 10) = 2 := by
    unfold lookup_interval
    rw [lookup_interval_loop]; norm_num
    rw [lookup_interval_loop]; norm_num
    rw [lookup_interval_loop]; norm_num
  refine ⟨h, by rw [h]; decide, ?_⟩
  refine ⟨_, rfl, rfl, ?_, ?_⟩
  · unfold insert_gslbf
    simp only [high_score]
    rw [h]
    rfl
  · unfold test_gslbf
    simp only [high_score]
    rw [h]
    rfl

/-- C15 (as stated, refuted): `init_counters` does not fail when `bits_per_counter` is
below 1: with `bits_per_counter = 0` it returns an array of zero words. -/
theorem C15_init_counters_accepts_zero_bits :
    init_counters 5 0 = some ⟨[], 5, 0, 0⟩ ∧ ¬ (1 ≤ (0 : Nat)) := by
  refine ⟨by decide, by decide⟩

/-- C15 (amended): `init_counters` fails exactly when `bits_per_counter > 32`; for every
`bits_per_counter ≤ 32`, so for every value in 1..32, it returns an array with the given
size and width, `(size * bits_per_counter + 31) / 32` words, all zero. -/
theorem C15_init_counters_fails_iff (size bits_per_counter : Nat) :
    (init_counters size bits_per_counter = none ↔ bits_per_counter > 32) ∧
    (bits_per_counter ≤ 32 → ∃ c, init_counters size bits_per_counter = some c ∧
      c.size = size ∧ c.bits_per_counter = bits_per_counter ∧
      c.num_bins = (size * bits_per_counter + 31) / 32 ∧
      c.raw_bits = List.replicate c.num_bins 0) := by
  constructor
  · constructor
    · intro h
      by_contra hle
      rw [init_counters_eq_some size bits_per_counter (by omega)] at h
      exact absurd h (by simp)
    · intro h
      unfold init_counters MAX_BITS_PER_COUNTER
      rw [if_pos h]
  · intro h
    exact ⟨_, init_counters_eq_some size bits_per_counter h, rfl, rfl, rfl, rfl⟩

/-- Witness for C15: 3 counters of 11 bits. -/
theorem C15_init_counters_fails_iff_witness :
    ∃ c, init_counters 3 11 = some c ∧ c.size = 3 ∧ c.bits_per_counter = 11 ∧
      c.num_bins = (3 * 11 + 31) / 32 ∧ c.raw_bits = List.replicate c.num_bins 0 :=
  (C15_init_counters_fails_iff 3 11).2 (by decide)

/-- C16 (as stated, refuted): `init_gslbf` given the decreasing thresholds `[1, 0]` reports
nothing: it builds the filter, with one SBF allocated and the thresholds stored as given. -/
theorem C16_init_gslbf_accepts_decreasing_thresholds :
    ∃ G : GSLBF Unit Nat, init_gslbf 0 () [1] [2] [8] [3] [1, 0] 1 = some G ∧
      G.tau_array = [1, 0] ∧ G.SBF_array.length = 1 ∧ ¬ ((1 : ℚ) ≤ 0) := by
  refine ⟨_, rfl, rfl, rfl, by norm_num⟩

/-- C16 (amended): `init_gslbf` makes no check of the threshold array: whatever
`tau_array` is, the result is the one obtained with any other threshold array, with
`tau_array` stored in it as given; the filters are allocated in either case. -/
theorem C16_init_gslbf_ignores_thresholds {Model Rng : Type} (rng0 : Rng) (model : Model)
    (P_array K_array m_array bits_per_counter_array : List Nat) (tau_array other : List ℚ)
    (g : Nat) :
    init_gslbf rng0 model P_array K_array m_array bits_per_counter_array tau_array g =
        (init_gslbf rng0 model P_array K_array m_array bits_per_counter_array other g).map
          (fun G => { G with tau_array := tau_array }) ∧
      ((∀ i, i < g → bits_per_counter_array.getD i 0 ≤ 32) →
        ∃ G, init_gslbf rng0 model P_array K_array m_array bits_per_counter_array tau_array g =
            some G ∧
          G.tau_array = tau_array ∧ G.SBF_array.length = g ∧ G.g = g) := by
  constructor
  · unfold init_gslbf
    cases (List.range g).mapM fun i =>
        init_sbf rng0 (P_array.getD i 0) (K_array.getD i 0) (m_array.getD i 0)
          (bits_per_counter_array.getD i 0) <;> rfl
  · intro hB
    obtain ⟨sbfs, h1, h2⟩ := mapM_option_some
      (fun i => init_sbf rng0 (P_array.getD i 0) (K_array.getD i 0) (m_array.getD i 0)
        (bits_per_counter_array.getD i 0)) (List.range g)
      (fun i hi => init_sbf_eq_some rng0 _ _ _ _ (hB i (List.mem_range.1 hi)))
    refine ⟨⟨model, tau_array, sbfs, g⟩, ?_, rfl, by simpa using h2, rfl⟩
    unfold init_gslbf
    rw [h1]
    rfl

/-- Witness for C16: the decreasing thresholds `[1, 0]` and one group of 3-bit counters. -/
theorem C16_init_gslbf_ignores_thresholds_witness :
    ∃ G : GSLBF Unit Nat, init_gslbf 0 () [1] [2] [8] [3] [1, 0] 1 = some G ∧
      G.tau_array = [1, 0] ∧ G.SBF_array.length = 1 ∧ G.g = 1 :=
  (C16_init_gslbf_ignores_thresholds 0 () [1] [2] [8] [3] [1, 0] [] 1).2
    (by intro i hi; interval_cases i; decide)

/-- C17: with two allocated groups, the thresholds `[0, 0.3, 0.7]` and a record scored 0.9,
the index `insert_gslbf` and `test_gslbf` select is `lookup_interval = 2 = g`; there is no
`SBF_array[2]`, so no group's SBF becomes the state `insert_sbf` gives: the embedding
returns `none` where the code runs `insert_sbf` and `test_sbf` on the memory past the
array. -/
theorem C17_insert_gslbf_past_last_group :
    ∃ G : GSLBF Unit Nat,
      init_gslbf 0 () [1, 1] [2, 2] [8, 8] [3, 3] [0, 3 / 10, 7 / 10] 2 = some G ∧
      G.g = 2 ∧ G.SBF_array.length = 2 ∧
      lookup_interval G.tau_array (G.g + 1) (high_score G.model 9) = 2 ∧
      G.SBF_array[lookup_interval G.tau_array (G.g + 1) (high_score G.model 9)]? = none ∧
      (insert_gslbf high_score sample_id_bytes sample_rng sample_hash G 9 4).isNone = true ∧
      (test_gslbf high_score sample_id_bytes sample_hash G 9 4).isNone = true ∧
      ¬ ∃ G', insert_gslbf high_score sample_id_bytes sample_rng sample_hash G 9 4 =
        some G' := by
  have h : lookup_interval [0, 3 / 10, 7 / 10] 3 (9 / 10) = 2 := by
    unfold lookup_interval
    rw [lookup_interval_loop]; norm_num
    rw [lookup_interval_loop]; norm_num
    rw [lookup_interval_loop]; norm_num
  have hins : (insert_gslbf high_score sample_id_bytes sample_rng sample_hash
      (⟨(), [0, 3 / 10, 7 / 10],
        [⟨⟨[0], 8, 3, 1⟩, 0, [0, 0], 1, 2, 8, 0⟩, ⟨⟨[0], 8, 3, 1⟩, 0, [0, 0], 1, 2, 8, 0⟩],
        2⟩ : GSLBF Unit Nat) 9 4).isNone = true := by
    unfold insert_gslbf
    simp only [high_score]
    rw [h]
    rfl
  refine ⟨⟨(), [0, 3 / 10, 7 / 10],
      [⟨⟨[0], 8, 3, 1⟩, 0, [0, 0], 1, 2, 8, 0⟩, ⟨⟨[0], 8, 3, 1⟩, 0, [0, 0], 1, 2, 8, 0⟩],
      2⟩, rfl, rfl, rfl, ?_, ?_, hins, ?_, ?_⟩
  · simp only [high_score]; exact h
  · simp only [high_score]
    rw [h]
    rfl
  · unfold test_gslbf
    simp only [high_score]
    rw [h]
    rfl
  · rintro ⟨G', hG'⟩
    rw [hG'] at hins
    exact absurd hins (by simp)

end SLBF
